import Mathlib

/-!
Verification of the CTe/NFe cross-linking tool (`adicionar_info_de_ctes_em_nfes`).

The Rust sources are shallowly embedded:
* bytes are `Nat` (ASCII codes), text lines are `List Nat`;
* `HashMap<Chave, HashSet<Chave>>` is `KMap`: a finite domain plus a value
  function that is `∅` off the domain (mirroring `entry(..).or_default()`);
* monetary values (`f64`) are idealised as `ℚ` — the numeric claims of the
  spec are stated with exact decimal constants, which `ℚ` represents exactly;
* per-line I/O results (`io::Result<String>`) are `Except ε (List Nat)`.
-/

/-- Embeds the digit test `b.wrapping_sub(b'0') < 10` from `Chave::new`
(src/chave.rs): wrapping subtraction on `u8` is `(b + 256 - 48) % 256`. -/
def isDigitByte (b : Nat) : Bool := (b + 208) % 256 < 10

/-- Embeds `struct Chave([u8; 44])` (src/chave.rs): a value holding exactly
44 ASCII digit bytes.  The construction invariant of the Rust type is carried
in the subtype. -/
def Chave : Type := { l : List Nat // l.length = 44 ∧ l.all isDigitByte = true }

instance : LinearOrder Chave :=
  inferInstanceAs (LinearOrder { l : List Nat // l.length = 44 ∧ l.all isDigitByte = true })

/-- The 44 digit bytes of a key (the wrapped array of `Chave`). -/
def Chave.digits (c : Chave) : List Nat := Subtype.val c

/-- Embeds `Chave::is_nfe` (src/chave.rs): bytes 20..22 equal `b"55"`. -/
def Chave.isNfe (c : Chave) : Bool := decide ((c.digits.drop 20).take 2 = [53, 53])

/-- Embeds `Chave::is_cte` (src/chave.rs): bytes 20..22 equal `b"57"`. -/
def Chave.isCte (c : Chave) : Bool := decide ((c.digits.drop 20).take 2 = [53, 55])

/-- Embeds the digit-collection loop of `Chave::new` (src/chave.rs lines 40-62).
`acc` holds the digits collected so far (in reverse, as an accumulator for the
array `arr`); on a digit byte with 44 digits already collected the Rust code
returns `None` immediately (the 45th digit rejects the key); after the loop the
key is valid only when exactly 44 digits were found. -/
def coletarDigitos : List Nat → List Nat → Option (List Nat)
  | [], acc => if acc.length = 44 then some acc.reverse else none
  | b :: rest, acc =>
    if isDigitByte b then
      if acc.length < 44 then coletarDigitos rest (b :: acc)
      else none
    else coletarDigitos rest acc

/-- Embeds `Chave::new` (src/chave.rs): the pre-flight length check
(`s.len() < 44`), then the digit-collection loop.  The dependent `if` packages
the collected digits into the subtype; its `else` branch is unreachable
(the loop only returns lists of 44 digit bytes). -/
def Chave.new (s : List Nat) : Option Chave :=
  if s.length < 44 then none
  else
    match coletarDigitos s [] with
    | none => none
    | some l =>
      if h : l.length = 44 ∧ l.all isDigitByte = true then some ⟨l, h⟩ else none

/-!
## Relationship maps

`KMap α` embeds `HashMap<Chave, HashSet<Chave>>` (alias `KeyMap` in
src/utils.rs): a finite key set together with the per-key value set.  All maps
built below keep the convention that `val` is `∅` off `dom`; where the Rust
code uses `entry(k).or_default()` the embedding consults `dom` explicitly, so
no convention is assumed in the statements.
-/

/-- A finite map from keys to key sets, as used for `cte_nfes`,
`cte_complementar` and `nfe_ctes` in `struct Informacoes` (src/informacoes.rs). -/
structure KMap (α : Type) where
  dom : Finset α
  val : α → Finset α

/-- The empty map (`HashMap::new`). -/
def KMap.empty (α : Type) : KMap α := ⟨∅, fun _ => ∅⟩

/-- Embeds `map.insert(k, s)`: overwrites the entry for `k`. -/
def KMap.insertSet [DecidableEq α] (m : KMap α) (k : α) (s : Finset α) : KMap α :=
  ⟨insert k m.dom, fun a => if a = k then s else m.val a⟩

/-- Embeds `map.entry(k).or_default().extend(s)`: unions `s` into the (possibly
freshly defaulted) entry for `k`. -/
def KMap.extendSet [DecidableEq α] (m : KMap α) (k : α) (s : Finset α) : KMap α :=
  ⟨insert k m.dom, fun a => if a = k then (if k ∈ m.dom then m.val k else ∅) ∪ s else m.val a⟩

/-- Embeds step 1 of `Informacoes::expandir_cte_complementar`
(src/informacoes.rs lines 229-236): the symmetrised adjacency structure.  For
every entry `(u, S)` of the drained map and every `v ∈ S` the Rust loop runs
`adj.entry(u).or_default().insert(v)` and `adj.entry(v).or_default().insert(u)`;
so a key enters `adj` iff it is the source of a nonempty entry or a listed
neighbour, and its adjacency set collects its own entry plus all reverse edges. -/
def symAdj [DecidableEq α] (m : KMap α) : KMap α where
  dom := m.dom.filter (fun u => m.val u ≠ ∅) ∪ m.dom.biUnion m.val
  val a := (if a ∈ m.dom then m.val a else ∅) ∪ m.dom.filter (fun u => a ∈ m.val u)

/-- Embeds the explicit-stack depth-first traversal of
`Informacoes::expandir_cte_complementar` (src/informacoes.rs lines 248-259):
pop `c`; if newly visited, mark it and push its neighbours (`adj.get` returns
neighbours only for keys present in `adj`).  Returns the final visited set; the
`group` collected by the Rust loop is the difference between the returned set
and the initial `visited`. -/
def dfsVisit [LinearOrder α] (adj : KMap α) : List α → Finset α → Finset α
  | [], visited => visited
  | c :: stack, visited =>
    if c ∈ visited then dfsVisit adj stack visited
    else if c ∈ adj.dom then
      dfsVisit adj ((adj.val c).sort (· ≤ ·) ++ stack) (insert c visited)
    else
      dfsVisit adj stack (insert c visited)
termination_by stack visited => ((adj.dom \ visited).card, stack.length)
decreasing_by
  · exact Prod.Lex.right _ (Nat.lt_succ_self _)
  · apply Prod.Lex.left
    apply Finset.card_lt_card
    apply Finset.ssubset_iff_of_subset (Finset.sdiff_subset_sdiff le_rfl
      (Finset.subset_insert _ _)) |>.mpr
    exact ⟨c, Finset.mem_sdiff.mpr ⟨‹c ∈ adj.dom›, ‹¬c ∈ visited›⟩,
      fun hc => (Finset.mem_sdiff.mp hc).2 (Finset.mem_insert_self _ _)⟩
  · have : adj.dom \ insert c visited = adj.dom \ visited := by
      ext x
      simp only [Finset.mem_sdiff, Finset.mem_insert]
      constructor
      · rintro ⟨hx, hx2⟩; exact ⟨hx, fun h => hx2 (Or.inr h)⟩
      · rintro ⟨hx, hx2⟩
        refine ⟨hx, fun h => ?_⟩
        rcases h with h | h
        · exact ‹¬c ∈ adj.dom› (h ▸ hx)
        · exact hx2 h
    rw [this]
    exact Prod.Lex.right _ (Nat.lt_succ_self _)

/-- Embeds step 3 of `Informacoes::expandir_cte_complementar`
(src/informacoes.rs lines 263-275): for each member of a group of size > 1,
insert the group minus that member (the Rust `others.is_empty()` guard is kept). -/
def insertClique [LinearOrder α] (group : Finset α) (out : KMap α) : KMap α :=
  if 1 < group.card then
    (group.sort (· ≤ ·)).foldl
      (fun o mem => if group.erase mem ≠ ∅ then o.insertSet mem (group.erase mem) else o)
      out
  else out

/-- Embeds the outer vertex loop of `Informacoes::expandir_cte_complementar`
(src/informacoes.rs lines 242-276) over a key list of the adjacency structure. -/
def expandLoop [LinearOrder α] (adj : KMap α) :
    List α → Finset α → KMap α → KMap α
  | [], _, out => out
  | node :: keys, visited, out =>
    if node ∈ visited then expandLoop adj keys visited out
    else
      expandLoop adj keys (dfsVisit adj [node] visited)
        (insertClique (dfsVisit adj [node] visited \ visited) out)

/-- Embeds `Informacoes::expandir_cte_complementar` (src/informacoes.rs):
symmetrise, then visit every key of the adjacency structure once, replacing
each connected component of size ≥ 2 by a clique.  (`HashMap` iteration order
is unspecified; the embedding fixes the sorted key order, and the theorems below
characterise the result purely by graph reachability, which is order-free.) -/
def expandir [LinearOrder α] (m : KMap α) : KMap α :=
  expandLoop (symAdj m) ((symAdj m).dom.sort (· ≤ ·)) ∅ (KMap.empty α)

/-- Embeds `Informacoes::propagar_nfes_para_cte_complementares`
(src/informacoes.rs lines 324-352): for every `(cte, nfes)` entry of `cn` whose
key also has complements in `cc`, every complement target accumulates `nfes`;
the accumulated updates are then unioned back into `cn`. -/
def propagar [DecidableEq α] (cn cc : KMap α) : KMap α where
  dom := cn.dom ∪ (cn.dom ∩ cc.dom).biUnion cc.val
  val a := (if a ∈ cn.dom then cn.val a else ∅) ∪
    (((cn.dom ∩ cc.dom).filter (fun c => a ∈ cc.val c)).biUnion cn.val)

/-- Embeds `Informacoes::get_nfe_ctes` (src/informacoes.rs lines 354-364): clear
the inverted index, then insert `cte` into `nfe_ctes[nfe]` for every pair
`(cte, nfe)` with `nfe ∈ cte_nfes[cte]`. -/
def inverter [DecidableEq α] (cn : KMap α) : KMap α where
  dom := cn.dom.biUnion cn.val
  val n := cn.dom.filter (fun c => n ∈ cn.val c)

/-- The undirected step relation of the symmetrised adjacency structure: one
edge traversal as performed by the DFS (`adj.get(&current)` requires the
source key to be present). -/
def Step (adj : KMap α) (u v : α) : Prop := u ∈ adj.dom ∧ v ∈ adj.val u

/-- Connectivity by any path of complement edges (the reachability the DFS
discovers). -/
def Reaches (adj : KMap α) : α → α → Prop := Relation.ReflTransGen (Step adj)

/-- The shape invariant the symmetrisation step establishes: every listed
neighbour relation holds in both directions and both endpoints are keys of
the adjacency structure. -/
def AdjSymm (adj : KMap α) : Prop :=
  ∀ u v, v ∈ adj.val u → u ∈ adj.val v ∧ u ∈ adj.dom ∧ v ∈ adj.dom

/-!
## Relationship-file loaders (src/informacoes.rs)

A line is a byte list.  The regex `\b\d{44}\b` compiled in both loaders
matches exactly the maximal word-character runs consisting of 44 digits
(a word boundary `\b` sits only at a word/non-word transition, so a 44-digit
run flanked by a word character is rejected, and a longer digit run contains
no boundary after its 44th digit).  `chavesDaLinha` embeds
`re.find_iter(&line).filter_map(|m| Chave::new(m.as_str()))`; on an exact
44-digit token `Chave::new` trivially succeeds with those digits, which the
dependent `if` reflects.
-/

/-- ASCII word character as used by the regex word boundary `\b`:
digit, letter or underscore. -/
def isWordByte (b : Nat) : Bool :=
  isDigitByte b || (65 ≤ b && b ≤ 90) || (97 ≤ b && b ≤ 122) || b = 95

/-- Scanner splitting a line into its maximal word-character runs
(the candidate match sites of `\b\d{44}\b`). -/
def tokensAux : List Nat → List Nat → List (List Nat)
  | [], acc => if acc = [] then [] else [acc.reverse]
  | b :: rest, acc =>
    if isWordByte b then tokensAux rest (b :: acc)
    else if acc = [] then tokensAux rest [] else acc.reverse :: tokensAux rest []

/-- The maximal word-character runs of a line, left to right. -/
def tokensDeLinha (l : List Nat) : List (List Nat) := tokensAux l []

/-- The keys of a line: embeds the per-line
`re.find_iter(&line).filter_map(|m| Chave::new(m.as_str()))` of both loaders
(src/informacoes.rs lines 90 and 144). -/
def chavesDaLinha (l : List Nat) : List Chave :=
  (tokensDeLinha l).filterMap
    (fun t => if h : t.length = 44 ∧ t.all isDigitByte = true then some ⟨t, h⟩ else none)

/-- Embeds the per-line closure of `Informacoes::ler_todas_as_nfes_deste_cte`
(src/informacoes.rs lines 87-104): the first key of the line must be
manifest-typed; the remaining invoice-typed keys form the entry; a line with
no invoice keys yields nothing. -/
def parseLinhaCteNfes (line : List Nat) : Option (Chave × Finset Chave) :=
  match chavesDaLinha line with
  | [] => none
  | cte :: rest =>
    if cte.isCte = true then
      if (rest.filter Chave.isNfe).toFinset = ∅ then none
      else some (cte, (rest.filter Chave.isNfe).toFinset)
    else none

/-- Embeds `Informacoes::ler_todas_as_nfes_deste_cte` (src/informacoes.rs
lines 69-119) at the per-line level: a failed line read is discarded by
`line_result.ok()?` inside `filter_map`; per-line results are combined by
key with set union (the `fold`/`reduce` pair).  The surrounding file-open and
regex-compilation failures are outside the per-line model. -/
def lerTodasAsNfesDesteCte (results : List (Except ε (List Nat))) : KMap Chave :=
  (results.filterMap
      (fun r => match r with
        | .error _ => none
        | .ok line => parseLinhaCteNfes line)).foldl
    (fun m p => m.extendSet p.1 p.2) (KMap.empty Chave)

/-- Embeds the per-line body of `Informacoes::ler_chave_complementar_deste_cte`
(src/informacoes.rs lines 144-154): take the first two keys of the line; if
both are manifest-typed and distinct, insert the edge in both directions. -/
def addLinhaComplementar (acc : KMap Chave) (line : List Nat) : KMap Chave :=
  match chavesDaLinha line with
  | c1 :: c2 :: _ =>
    if c1.isCte = true ∧ c2.isCte = true ∧ c1 ≠ c2 then
      (acc.extendSet c1 {c2}).extendSet c2 {c1}
    else acc
  | _ => acc

/-- Embeds the `try_fold` of `Informacoes::ler_chave_complementar_deste_cte`
(src/informacoes.rs lines 135-164): a failed line read (`line_result?`)
aborts the whole load with the propagated error. -/
def lerCompAux (acc : KMap Chave) : List (Except ε (List Nat)) → Except ε (KMap Chave)
  | [] => .ok acc
  | .error e :: _ => .error e
  | .ok line :: rest => lerCompAux (addLinhaComplementar acc line) rest

/-- Embeds `Informacoes::ler_chave_complementar_deste_cte` at the per-line
level (file-open and regex-compilation failures are outside the model). -/
def lerChaveComplementarDesteCte (results : List (Except ε (List Nat))) :
    Except ε (KMap Chave) :=
  lerCompAux (KMap.empty Chave) results

/-- Embeds the relationship state of `struct Informacoes` (src/informacoes.rs
lines 15-20); the line counter of the second pass is irrelevant to the claims
and omitted. -/
structure Informacoes where
  nfeCtes : KMap Chave
  cteNfes : KMap Chave
  cteComplementar : KMap Chave

/-- Embeds `Informacoes::from_files` (src/informacoes.rs lines 24-67): load
both relationship files (an error from either load propagates), expand the
complement relation, propagate invoices to complements, and build the
inverted index. -/
def fromFiles (lines1 lines2 : List (Except ε (List Nat))) : Except ε Informacoes :=
  match lerChaveComplementarDesteCte lines2 with
  | .error e => .error e
  | .ok cc0 =>
    .ok
      { nfeCtes := inverter (propagar (lerTodasAsNfesDesteCte lines1) (expandir cc0))
        cteNfes := propagar (lerTodasAsNfesDesteCte lines1) (expandir cc0)
        cteComplementar := expandir cc0 }

/-!
## Document summaries and the merge rule (src/processor.rs)

Monetary values are idealised as `ℚ`; the captured metadata snapshots are the
sum type `DocMetadata` over the 16-field CTe and 10-field NFe snapshots.
-/

/-- Embeds `struct CteMetadata` (src/colunas.rs lines 392-452): the 16 CTe
columns captured for injection into NFe rows. -/
structure CteMetadata where
  remetenteCnpj1 : String
  remetenteCnpj2 : String
  tomadorPapel1 : String
  tomadorPapel2 : String
  tomadorCnpj1 : String
  tomadorCnpj2 : String
  inicioEstado : String
  inicioMunicipio : String
  terminoEstado : String
  terminoMunicipio : String
  destinatarioCnpj : String
  destinatarioNome : String
  localEntrega : String
  descricaoNatureza : String
  observacoesGerais : String
  descricaoCfop : String
deriving DecidableEq

/-- Embeds `struct NfeMetadata` (src/colunas.rs lines 455-478): the 10 NFe
columns captured for injection into CTe rows. -/
structure NfeMetadata where
  contribuinteNome : String
  participanteNome : String
  observacoes : String
  numeroDi : String
  descricaoCfop : String
  descricaoMercadoria : String
  ncm : String
  descricaoNcm : String
  cstDescricaoCofins : String
  cstDescricaoPis : String
deriving DecidableEq

/-- Embeds `enum DocMetadata` (src/processor.rs lines 27-31). -/
inductive DocMetadata where
  | cte : CteMetadata → DocMetadata
  | nfe : NfeMetadata → DocMetadata
deriving DecidableEq

/-- Embeds `struct DocSummary` (src/processor.rs lines 40-46). -/
structure DocSummary where
  numDeItens : Nat
  itemValorTotal : ℚ
  itemValorMaximo : ℚ
  metadata : Option DocMetadata
deriving DecidableEq

/-- Embeds `DocSummary::merge` (src/processor.rs lines 50-60): counts and
totals add; if the right operand's maximum is strictly greater, its maximum
and metadata win, otherwise the left operand keeps both (left wins exact
ties). -/
def DocSummary.merge (s o : DocSummary) : DocSummary where
  numDeItens := s.numDeItens + o.numDeItens
  itemValorTotal := s.itemValorTotal + o.itemValorTotal
  itemValorMaximo :=
    if s.itemValorMaximo < o.itemValorMaximo then o.itemValorMaximo else s.itemValorMaximo
  metadata := if s.itemValorMaximo < o.itemValorMaximo then o.metadata else s.metadata

/-- Embeds one of the two `HashMap<Chave, DocSummary>` maps of
`struct SummaryPair` (src/processor.rs lines 64-68). -/
structure SumMap where
  dom : Finset Chave
  val : Chave → DocSummary

/-- Embeds the per-map body of `SummaryPair::merge` (src/processor.rs lines
73-93): a key present in both maps gets the merged summary, a key present in
only one keeps that summary. -/
def SumMap.mergeMap (m1 m2 : SumMap) : SumMap where
  dom := m1.dom ∪ m2.dom
  val k :=
    if k ∈ m1.dom then
      if k ∈ m2.dom then (m1.val k).merge (m2.val k) else m1.val k
    else m2.val k

/-!
## Monetary-value parsing (src/colunas.rs, `Colunas::get_valor_do_item`)
-/

/-- Bytes accepted into the 64-byte working buffer besides the comma:
digits, sign, dot and the scientific-notation markers. -/
def isAceito (b : Nat) : Bool :=
  isDigitByte b || b = 45 || b = 43 || b = 46 || b = 101 || b = 69

/-- Embeds the cleaning loop of `Colunas::get_valor_do_item` (src/colunas.rs
lines 230-254): `pos` counts bytes already written to the 64-byte buffer and
the loop fails as soon as a byte is processed with the buffer full; a dot is
dropped when the input contains a comma; a comma becomes a dot; accepted
bytes are copied; everything else is skipped.  `acc` holds the buffer content
in reverse. -/
def limparValorAux (temVirgula : Bool) : List Nat → Nat → List Nat → Option (List Nat)
  | [], _, acc => some acc.reverse
  | b :: rest, pos, acc =>
    if 64 ≤ pos then none
    else if b = 46 ∧ temVirgula = true then limparValorAux temVirgula rest pos acc
    else if b = 44 then limparValorAux temVirgula rest (pos + 1) (46 :: acc)
    else if isAceito b = true then limparValorAux temVirgula rest (pos + 1) (b :: acc)
    else limparValorAux temVirgula rest pos acc

/-- Numeric value of a digit-byte run. -/
def natDeDigitos (l : List Nat) : Nat := l.foldl (fun n b => n * 10 + (b - 48)) 0

/-- Embeds `s.parse::<f64>()` on the cleaned buffer, idealised over `ℚ`:
optional sign, integer digits, optional fractional part, optional exponent
with mandatory digits, and no trailing bytes; at least one mantissa digit is
required.  (The special forms `inf`/`nan` cannot occur: the buffer only holds
digits, signs, dots and `e`/`E`.) -/
def parseDecimal (s : List Nat) : Option ℚ :=
  let neg : Bool := match s with | 45 :: _ => true | _ => false
  let s1 : List Nat := match s with | 45 :: t => t | 43 :: t => t | _ => s
  let ip := s1.takeWhile isDigitByte
  let r1 := s1.dropWhile isDigitByte
  let fp : List Nat := match r1 with | 46 :: t => t.takeWhile isDigitByte | _ => []
  let r2 : List Nat := match r1 with | 46 :: t => t.dropWhile isDigitByte | _ => r1
  if ip = [] ∧ fp = [] then none
  else
    let mant : ℚ := (natDeDigitos (ip ++ fp) : ℚ) / (10 : ℚ) ^ fp.length
    let signed : ℚ := if neg then -mant else mant
    match r2 with
    | [] => some signed
    | e :: t =>
      if e = 101 ∨ e = 69 then
        let negE : Bool := match t with | 45 :: _ => true | _ => false
        let t1 : List Nat := match t with | 45 :: u => u | 43 :: u => u | _ => t
        let ed := t1.takeWhile isDigitByte
        let r3 := t1.dropWhile isDigitByte
        if ed = [] ∨ r3 ≠ [] then none
        else
          some (signed *
            (10 : ℚ) ^ (if negE then -(natDeDigitos ed : ℤ) else (natDeDigitos ed : ℤ)))
      else none

/-- Embeds `Colunas::get_valor_do_item` (src/colunas.rs lines 220-262): empty
input fails; the cleaning loop may fail on buffer overflow; an empty cleaned
buffer fails; otherwise the cleaned buffer is parsed as a decimal number. -/
def getValorDoItem (bytes : List Nat) : Option ℚ :=
  if bytes = [] then none
  else
    match limparValorAux (bytes.contains 44) bytes 0 [] with
    | none => none
    | some cleaned => if cleaned = [] then none else parseDecimal cleaned

/-!
## Length-budgeted append (src/args.rs, `Config::append`)

Text is `List Char`; `List.length` equals Rust's `chars().count()`.
-/

/-- Leading- and trailing-whitespace trim (`str::trim`). -/
def trimDeTexto (l : List Char) : List Char :=
  ((l.dropWhile Char.isWhitespace).reverse.dropWhile Char.isWhitespace).reverse

/-- The fixed-format label wrapper built by `Config::append`
(src/args.rs line 75): `" [Info d{artigo} {label}: {value}]"`. -/
def sufixoDeInfo (label value : List Char) : List Char :=
  let artigo : Char := if label = [ 'N', 'F', '-', 'e' ] then 'a' else 'o'
  [ ' ', '[', 'I', 'n', 'f', 'o', ' ', 'd' ] ++ [ artigo ] ++ [ ' ' ] ++ label ++
    [ ':', ' ' ] ++ value ++ [ ']' ]

/-- Embeds `Config::append` (src/args.rs lines 66-88): trim the value and do
nothing when it is empty; otherwise append the label wrapper only when the
prospective character count stays strictly below `max_char`. -/
def configAppend (maxChar : Nat) (field value label : List Char) : List Char :=
  let v := trimDeTexto value
  if v = [] then field
  else if field.length + (14 + label.length + v.length) < maxChar then
    field ++ sufixoDeInfo label v
  else field

/-!
## Enrichment rewrite pass (src/utils.rs, `enriquecer_arquivo`)

The csv reader/writer pair is modelled on the quote-free fragment of the
configured dialect, which suffices for the claims about it: the reader
(`delimiter(b';')`, `trim(csv::Trim::All)`) splits a raw line at semicolons
and trims every field; the writer (`delimiter(b';')`,
`QuoteStyle::Necessary`) joins fields with semicolons, quoting only fields
that contain a delimiter, quote or line break.  The per-row enrichment
decision (`chave_cancelada` plus `adicionar_info_de_*`) is abstracted as a
record transform `f` returning `none` when the row is unchanged.
-/

/-- Reader side: split a raw line at `;` and trim each field (`Trim::All`). -/
def parseLinhaCsv (l : List Char) : List (List Char) :=
  (l.splitOn ';').map trimDeTexto

/-- Does the writer have to quote this field (`QuoteStyle::Necessary`)? -/
def precisaAspas (f : List Char) : Bool :=
  f.any (fun c => c = ';' || c = '"' || c = '\n' || c = '\r')

/-- Writer side: encode one field, doubling quotes inside quoted fields. -/
def codificarCampo (f : List Char) : List Char :=
  if precisaAspas f then
    '"' :: (f.flatMap (fun c => if c = '"' then [ '"', '"' ] else [ c ])) ++ [ '"' ]
  else f

/-- Writer side: encode one record (`wtr.write_record` / `wtr.serialize`). -/
def codificarRegistro (fields : List (List Char)) : List Char :=
  match fields with
  | [] => []
  | f :: rest => rest.foldl (fun acc g => acc ++ ';' :: codificarCampo g) (codificarCampo f)

/-- Embeds the row loop of `enriquecer_arquivo` (src/utils.rs lines 149-188):
each input line is read into a record; if the enrichment transform changes
nothing the original record is written back (`wtr.write_record(&record)`),
otherwise the changed record is serialised. -/
def enriquecerLinhas (f : List (List Char) → Option (List (List Char)))
    (lines : List (List Char)) : List (List Char) :=
  lines.map (fun ln =>
    match f (parseLinhaCsv ln) with
    | none => codificarRegistro (parseLinhaCsv ln)
    | some r => codificarRegistro r)

/-!
## Concrete sample data used by the closed instances below
-/

/-- Sample manifest key: twenty `1` digits, type code `57`, twenty-two `1`s. -/
def chaveCteA : Chave := ⟨List.replicate 20 49 ++ [53, 55] ++ List.replicate 22 49, by decide⟩

/-- Sample manifest key built from `2` digits. -/
def chaveCteB : Chave := ⟨List.replicate 20 50 ++ [53, 55] ++ List.replicate 22 50, by decide⟩

/-- Sample manifest key built from `3` digits. -/
def chaveCteC : Chave := ⟨List.replicate 20 51 ++ [53, 55] ++ List.replicate 22 51, by decide⟩

/-- Sample invoice key: twenty `4` digits, type code `55`, twenty-two `4`s. -/
def chaveNfeX : Chave := ⟨List.replicate 20 52 ++ [53, 53] ++ List.replicate 22 52, by decide⟩

/-- Sample captured NFe snapshot. -/
def nfeMetaEx : NfeMetadata := ⟨"a", "b", "c", "d", "e", "f", "g", "h", "i", "j"⟩

/-- Sample captured CTe snapshot. -/
def cteMetaEx : CteMetadata :=
  ⟨"a", "b", "c", "d", "e", "f", "g", "h", "i", "j", "k", "l", "m", "n", "o", "p"⟩

/-- The complement chain `a -> b`, `b -> c` exactly as built in the doctest of
`Informacoes::expandir_cte_complementar` (src/informacoes.rs lines 207-214):
entry `a ↦ {b}` and entry `b ↦ {c}`. -/
def mapCadeia (a b c : Chave) : KMap Chave :=
  ⟨{a, b}, fun k => if k = a then {b} else if k = b then {c} else ∅⟩

/-- A sample relationship line: a manifest key, a separator, an invoice key. -/
def linhaCteNfe : List Nat := chaveCteA.digits ++ 59 :: chaveNfeX.digits

/-!
## Theorems
-/

/-- The digit-collection loop computes the digit subsequence of its input:
given at most 44 digits already collected, it succeeds exactly when the
collected digits plus the remaining digit bytes total 44. -/
theorem coletarDigitos_spec (s : List Nat) : ∀ acc : List Nat, acc.length ≤ 44 →
    coletarDigitos s acc =
      if acc.length + (s.filter isDigitByte).length = 44
      then some (acc.reverse ++ s.filter isDigitByte) else none := by
  induction s with
  | nil =>
    intro acc _
    simp [coletarDigitos]
  | cons b rest ih =>
    intro acc hacc
    by_cases hb : isDigitByte b
    · have hfc : (b :: rest).filter isDigitByte = b :: rest.filter isDigitByte := by
        simp [hb]
      by_cases hlt : acc.length < 44
      · rw [coletarDigitos, if_pos hb, if_pos hlt,
          ih (b :: acc) (by simp only [List.length_cons]; omega), hfc]
        simp only [List.length_cons, List.reverse_cons]
        by_cases hc : acc.length + 1 + (rest.filter isDigitByte).length = 44
        · rw [if_pos hc, if_pos (by omega)]
          simp
        · rw [if_neg hc, if_neg (by omega)]
      · have h44 : acc.length = 44 := by omega
        rw [coletarDigitos, if_pos hb, if_neg hlt, hfc]
        rw [if_neg (by simp only [List.length_cons]; omega)]
    · have hfc : (b :: rest).filter isDigitByte = rest.filter isDigitByte := by
        simp [hb]
      rw [coletarDigitos, if_neg hb, ih acc hacc, hfc]

/-- C3: `Chave::new` succeeds exactly when the input contains exactly 44
ASCII digit bytes (non-digit noise is ignored, fewer than 44 digits fail, a
45th digit rejects the key rather than truncating), and on success the key
holds those 44 digits in input order. -/
theorem c3_chave_new_exatamente_44_digitos (s : List Nat) (k : Chave) :
    Chave.new s = some k ↔
      (s.filter isDigitByte).length = 44 ∧ k.digits = s.filter isDigitByte := by
  unfold Chave.new
  by_cases hlen : s.length < 44
  · rw [if_pos hlen]
    have hflt : (s.filter isDigitByte).length < 44 :=
      lt_of_le_of_lt (List.length_filter_le _ _) hlen
    constructor
    · intro h
      exact absurd h (by simp)
    · rintro ⟨h1, -⟩
      omega
  · rw [if_neg hlen]
    have hcol := coletarDigitos_spec s [] (by simp)
    simp only [List.length_nil, Nat.zero_add, List.reverse_nil, List.nil_append] at hcol
    by_cases hc : (s.filter isDigitByte).length = 44
    · have hall : (s.filter isDigitByte).all isDigitByte = true := by
        rw [List.all_eq_true]
        intro x hx
        exact List.of_mem_filter hx
      rw [if_pos hc] at hcol
      simp only [hcol]
      rw [dif_pos (And.intro hc hall)]
      constructor
      · intro h
        injection h with h2
        refine ⟨hc, ?_⟩
        rw [← h2]
        rfl
      · rintro ⟨-, h2⟩
        exact congrArg some (Subtype.ext h2.symm)
    · rw [if_neg hc] at hcol
      simp only [hcol]
      constructor
      · intro h
        exact absurd h (by simp)
      · rintro ⟨h1, -⟩
        exact absurd h1 hc

/-- The cleaning loop of `get_valor_do_item` fails on any all-digit tail that
would overflow the 64-byte buffer: with `pos` bytes already written and at
least `65 - pos` digits to come, some byte is processed with the buffer full. -/
theorem limparValorAux_overflow (tv : Bool) (l : List Nat) :
    ∀ (pos : Nat) (acc : List Nat), l ≠ [] →
      (∀ b ∈ l, isDigitByte b = true) → 65 ≤ pos + l.length →
      limparValorAux tv l pos acc = none := by
  induction l with
  | nil =>
    intro pos acc hne _ _
    exact absurd rfl hne
  | cons b rest ih =>
    intro pos acc _ hdig hlen
    rw [limparValorAux]
    by_cases hp : 64 ≤ pos
    · rw [if_pos hp]
    · have hb : isDigitByte b = true := hdig b (List.mem_cons_self b rest)
      have hb46 : b ≠ 46 := by
        intro h
        rw [h] at hb
        exact absurd hb (by decide)
      have hb44 : b ≠ 44 := by
        intro h
        rw [h] at hb
        exact absurd hb (by decide)
      rw [if_neg hp, if_neg (fun h => hb46 h.1), if_neg hb44,
        if_pos (by simp [isAceito, hb])]
      cases rest with
      | nil =>
        simp only [List.length_cons, List.length_nil] at hlen
        omega
      | cons c rest2 =>
        refine ih (pos + 1) (b :: acc) (by simp) (fun x hx => hdig x (List.mem_cons_of_mem b hx)) ?_
        simp only [List.length_cons] at hlen ⊢
        omega

set_option maxHeartbeats 2000000 in
/-- C5: concrete behaviour of the monetary-value parser: Brazilian and plain
decimal notation parse to the expected values with noise stripped, and empty,
all-noise, digitless and buffer-overflowing inputs yield no value (the
function returns `none`, a recoverable per-row outcome, rather than failing
the pass).  The last conjunct is the general buffer bound: any all-digit
value string of 65 or more digits is rejected by the 64-byte working buffer. -/
theorem c5_valor_do_item_casos :
    getValorDoItem [49, 46, 50, 51, 52, 44, 53, 54] = some (1234.56 : ℚ) ∧
    getValorDoItem [49, 50, 51, 52, 46, 53, 54] = some (1234.56 : ℚ) ∧
    getValorDoItem [45, 49, 46, 53, 48, 48, 44, 48, 48] = some (-1500 : ℚ) ∧
    getValorDoItem [82, 36, 32, 49, 46, 50, 51, 52, 44, 53, 54] = some (1234.56 : ℚ) ∧
    getValorDoItem [] = none ∧
    getValorDoItem [97, 98, 99] = none ∧
    getValorDoItem [46, 46, 46] = none ∧
    getValorDoItem (List.replicate 65 49) = none ∧
    (∀ bytes : List Nat, (∀ b ∈ bytes, isDigitByte b = true) → 65 ≤ bytes.length →
      getValorDoItem bytes = none) := by
  refine ⟨?_, ?_, ?_, ?_, by decide, by decide, by decide, by decide, ?_⟩
  · have h1 : limparValorAux ([49, 46, 50, 51, 52, 44, 53, 54].contains 44)
        [49, 46, 50, 51, 52, 44, 53, 54] 0 [] = some [49, 50, 51, 52, 46, 53, 54] := by
      decide
    rw [getValorDoItem, if_neg (by decide), h1]
    norm_num +decide [parseDecimal, natDeDigitos, isDigitByte, List.takeWhile, List.dropWhile]
  · have h1 : limparValorAux ([49, 50, 51, 52, 46, 53, 54].contains 44)
        [49, 50, 51, 52, 46, 53, 54] 0 [] = some [49, 50, 51, 52, 46, 53, 54] := by
      decide
    rw [getValorDoItem, if_neg (by decide), h1]
    norm_num +decide [parseDecimal, natDeDigitos, isDigitByte, List.takeWhile, List.dropWhile]
  · have h1 : limparValorAux ([45, 49, 46, 53, 48, 48, 44, 48, 48].contains 44)
        [45, 49, 46, 53, 48, 48, 44, 48, 48] 0 [] =
        some [45, 49, 53, 48, 48, 46, 48, 48] := by
      decide
    rw [getValorDoItem, if_neg (by decide), h1]
    norm_num +decide [parseDecimal, natDeDigitos, isDigitByte, List.takeWhile, List.dropWhile]
  · have h1 : limparValorAux ([82, 36, 32, 49, 46, 50, 51, 52, 44, 53, 54].contains 44)
        [82, 36, 32, 49, 46, 50, 51, 52, 44, 53, 54] 0 [] =
        some [49, 50, 51, 52, 46, 53, 54] := by
      decide
    rw [getValorDoItem, if_neg (by decide), h1]
    norm_num +decide [parseDecimal, natDeDigitos, isDigitByte, List.takeWhile, List.dropWhile]
  · intro bytes hdig hlen
    have hne : bytes ≠ [] := by
      intro h
      rw [h] at hlen
      simp at hlen
    rw [getValorDoItem, if_neg hne,
      limparValorAux_overflow (bytes.contains 44) bytes 0 [] hne hdig (by omega)]

/-- Closed instance of the buffer bound of `c5_valor_do_item_casos`: a
66-digit value string yields no value. -/
theorem c5_witness : getValorDoItem (List.replicate 66 49) = none :=
  c5_valor_do_item_casos.2.2.2.2.2.2.2.2 (List.replicate 66 49) (by decide) (by decide)

/-- C7 counterexample: the claim "appends the label-wrapped value exactly when
the prospective field length stays strictly below the maximum" fails for a
value that trims to empty: with an empty field, empty value, label `CT-e` and
budget 100 the prospective length is far below the maximum, yet `append`
leaves the field untouched (the Rust code returns early on an empty trimmed
value). -/
theorem c7_counterexample :
    ¬ (configAppend 100 [] [] [ 'C', 'T', '-', 'e' ] ≠ ([] : List Char) ↔
       ([] : List Char).length +
         (14 + [ 'C', 'T', '-', 'e' ].length + (trimDeTexto []).length) < 100) := by
  decide

/-- C7 (amended): for values that are nonempty after trimming, `Config::append`
appends the label wrapper exactly when the prospective length — current field
length plus the wrapper charge `14 + |label| + |value|` computed by the code —
stays strictly below `max_char`, and otherwise leaves the field unchanged;
values that trim to empty are never appended, whatever the budget. -/
theorem c7_append_orcamento_amended (maxChar : Nat) (field value label : List Char) :
    (trimDeTexto value = [] → configAppend maxChar field value label = field) ∧
    (trimDeTexto value ≠ [] →
      (field.length + (14 + label.length + (trimDeTexto value).length) < maxChar →
        configAppend maxChar field value label =
          field ++ sufixoDeInfo label (trimDeTexto value)) ∧
      (¬ field.length + (14 + label.length + (trimDeTexto value).length) < maxChar →
        configAppend maxChar field value label = field)) := by
  refine ⟨fun hv => ?_, fun hv => ⟨fun hb => ?_, fun hb => ?_⟩⟩
  · rw [configAppend]
    simp [hv]
  · rw [configAppend, if_neg hv, if_pos (by omega)]
  · rw [configAppend, if_neg hv, if_neg (by omega)]

/-- Closed instance of `c7_append_orcamento_amended`: a one-character value
inside a generous budget is appended with its label wrapper. -/
theorem c7_witness :
    configAppend 100 [ 'x' ] [ 'y' ] [ 'C', 'T', '-', 'e' ] =
      [ 'x' ] ++ sufixoDeInfo [ 'C', 'T', '-', 'e' ] (trimDeTexto [ 'y' ]) :=
  ((c7_append_orcamento_amended 100 [ 'x' ] [ 'y' ] [ 'C', 'T', '-', 'e' ]).2
    (by decide)).1 (by decide)

/-- C8 counterexample: a row the enrichment pass leaves unchanged is not
written back byte-identically: the reader is configured with `Trim::All`, so
the input line `a ;b` is parsed as the fields `a`,`b` and written back as
`a;b`. -/
theorem c8_counterexample :
    enriquecerLinhas (fun _ => none) [ [ 'a', ' ', ';', 'b' ] ] ≠
      [ [ 'a', ' ', ';', 'b' ] ] := by
  decide

/-- C8 (amended): the rewrite pass emits exactly one output row per input row
in the original order; a row whose enrichment transform reports no change is
written from the original parsed record (no re-serialisation of the struct),
which is byte-identical to the input line exactly when that line is already in
the writer's canonical form (trimmed fields, minimal quoting); a changed row
is re-encoded from the transformed record. -/
theorem c8_reescrita_em_ordem_amended
    (f : List (List Char) → Option (List (List Char))) (lines : List (List Char)) :
    (enriquecerLinhas f lines).length = lines.length ∧
    (∀ i : Fin lines.length,
      (f (parseLinhaCsv (lines.get i)) = none →
        (enriquecerLinhas f lines).get ⟨i.1, by simpa [enriquecerLinhas] using i.2⟩ =
          codificarRegistro (parseLinhaCsv (lines.get i)) ∧
        (codificarRegistro (parseLinhaCsv (lines.get i)) = lines.get i →
          (enriquecerLinhas f lines).get ⟨i.1, by simpa [enriquecerLinhas] using i.2⟩ =
            lines.get i)) ∧
      (∀ r, f (parseLinhaCsv (lines.get i)) = some r →
        (enriquecerLinhas f lines).get ⟨i.1, by simpa [enriquecerLinhas] using i.2⟩ =
          codificarRegistro r)) := by
  refine ⟨by simp [enriquecerLinhas], fun i => ?_⟩
  have hmap : (enriquecerLinhas f lines).get ⟨i.1, by simpa [enriquecerLinhas] using i.2⟩ =
      (match f (parseLinhaCsv (lines.get i)) with
        | none => codificarRegistro (parseLinhaCsv (lines.get i))
        | some r => codificarRegistro r) := by
    simp [enriquecerLinhas]
  refine ⟨fun hnone => ?_, fun r hsome => ?_⟩
  · have h1 : (enriquecerLinhas f lines).get
        ⟨i.1, by simpa [enriquecerLinhas] using i.2⟩ =
        codificarRegistro (parseLinhaCsv (lines.get i)) := by
      rw [hmap, hnone]
    exact ⟨h1, fun hcan => h1.trans hcan⟩
  · rw [hmap, hsome]

/-- Closed instance of `c8_reescrita_em_ordem_amended`: a canonical-form input
line with an unchanged row passes through byte-identically. -/
theorem c8_witness :
    (enriquecerLinhas (fun _ => none) [ [ 'a', ';', 'b' ] ]).get
        ⟨0, by simpa [enriquecerLinhas] using Nat.zero_lt_one⟩ =
      [ 'a', ';', 'b' ] :=
  (((c8_reescrita_em_ordem_amended (fun _ => none) [ [ 'a', ';', 'b' ] ]).2
      ⟨0, Nat.zero_lt_one⟩).1 rfl).2 (by decide)

/-- Field-wise equality criterion for summaries. -/
theorem docSummary_eq_of_campos (a b : DocSummary)
    (h1 : a.numDeItens = b.numDeItens) (h2 : a.itemValorTotal = b.itemValorTotal)
    (h3 : a.itemValorMaximo = b.itemValorMaximo) (h4 : a.metadata = b.metadata) :
    a = b := by
  cases a
  cases b
  simp_all

/-- Helper for C1: full associativity of `DocSummary::merge`, including the
metadata (leftmost-greatest-maximum wins in either association). -/
theorem docSummary_merge_assoc (a b c : DocSummary) :
    (a.merge b).merge c = a.merge (b.merge c) := by
  unfold DocSummary.merge
  simp only [DocSummary.mk.injEq]
  refine ⟨by omega, by ring, ?_, ?_⟩
  · split_ifs <;> first | rfl | linarith
  · split_ifs <;> first | rfl | linarith

/-- Helper for C1: summaries with distinct maxima merge the same way in
either order. -/
theorem docSummary_merge_comm_of_ne (a b : DocSummary)
    (h : a.itemValorMaximo ≠ b.itemValorMaximo) : a.merge b = b.merge a := by
  apply docSummary_eq_of_campos <;> unfold DocSummary.merge <;> dsimp only
  · omega
  · ring
  · rcases lt_trichotomy a.itemValorMaximo b.itemValorMaximo with hl | he | hg
    · rw [if_pos hl, if_neg (not_lt_of_lt hl)]
    · exact absurd he h
    · rw [if_neg (not_lt_of_lt hg), if_pos hg]
  · rcases lt_trichotomy a.itemValorMaximo b.itemValorMaximo with hl | he | hg
    · rw [if_pos hl, if_neg (not_lt_of_lt hl)]
    · exact absurd he h
    · rw [if_neg (not_lt_of_lt hg), if_pos hg]

/-- C1: the summary merge rule is associative (including metadata), its
numeric components are commutative, exact maximum ties keep the left operand's
metadata, summaries with distinct maxima commute outright, and the per-key map
merge of `SummaryPair::merge` is associative and — absent exact per-key
maximum ties — commutative on its entries, so the aggregation result does not
depend on how the dataset was partitioned across workers. -/
theorem c1_merge_comutativo_associativo :
    (∀ a b c : DocSummary, (a.merge b).merge c = a.merge (b.merge c)) ∧
    (∀ a b : DocSummary,
      (a.merge b).numDeItens = (b.merge a).numDeItens ∧
      (a.merge b).itemValorTotal = (b.merge a).itemValorTotal ∧
      (a.merge b).itemValorMaximo = (b.merge a).itemValorMaximo) ∧
    (∀ a b : DocSummary, a.itemValorMaximo = b.itemValorMaximo →
      (a.merge b).metadata = a.metadata) ∧
    (∀ a b : DocSummary, a.itemValorMaximo ≠ b.itemValorMaximo →
      a.merge b = b.merge a) ∧
    (∀ m1 m2 m3 : SumMap,
      ((m1.mergeMap m2).mergeMap m3).dom = (m1.mergeMap (m2.mergeMap m3)).dom ∧
      ∀ k, ((m1.mergeMap m2).mergeMap m3).val k = (m1.mergeMap (m2.mergeMap m3)).val k) ∧
    (∀ m1 m2 : SumMap,
      (∀ k, k ∈ m1.dom → k ∈ m2.dom →
        (m1.val k).itemValorMaximo ≠ (m2.val k).itemValorMaximo) →
      (m1.mergeMap m2).dom = (m2.mergeMap m1).dom ∧
      ∀ k, k ∈ m1.dom ∪ m2.dom →
        (m1.mergeMap m2).val k = (m2.mergeMap m1).val k) := by
  refine ⟨docSummary_merge_assoc, ?_, ?_, docSummary_merge_comm_of_ne, ?_, ?_⟩
  · intro a b
    unfold DocSummary.merge
    refine ⟨?_, ?_, ?_⟩ <;> dsimp only
    · omega
    · ring
    · split_ifs <;> linarith
  · intro a b h
    unfold DocSummary.merge
    dsimp only
    rw [h, if_neg (lt_irrefl _)]
  · intro m1 m2 m3
    refine ⟨Finset.union_assoc m1.dom m2.dom m3.dom, fun k => ?_⟩
    unfold SumMap.mergeMap
    simp only [Finset.mem_union]
    by_cases h1 : k ∈ m1.dom <;> by_cases h2 : k ∈ m2.dom <;> by_cases h3 : k ∈ m3.dom <;>
      simp [h1, h2, h3, docSummary_merge_assoc]
  · intro m1 m2 hk
    refine ⟨Finset.union_comm m1.dom m2.dom, fun k hkmem => ?_⟩
    unfold SumMap.mergeMap
    dsimp only
    by_cases h1 : k ∈ m1.dom <;> by_cases h2 : k ∈ m2.dom
    · rw [if_pos h1, if_pos h2, if_pos h2, if_pos h1]
      exact docSummary_merge_comm_of_ne _ _ (hk k h1 h2)
    · rw [if_pos h1, if_neg h2, if_neg h2]
    · rw [if_neg h1, if_pos h2, if_neg h1]
    · exact absurd hkmem (by simp [h1, h2])

/-- Closed instance of `c1_merge_comutativo_associativo`: an exact maximum tie
keeps the left operand's metadata, and summaries with distinct maxima merge
the same way in either order. -/
theorem c1_witness :
    ((DocSummary.mk 1 5 5 none).merge
        (DocSummary.mk 2 7 5 (some (DocMetadata.nfe nfeMetaEx)))).metadata =
      (DocSummary.mk 1 5 5 none).metadata ∧
    (DocSummary.mk 1 5 3 none).merge
        (DocSummary.mk 2 7 5 (some (DocMetadata.nfe nfeMetaEx))) =
      (DocSummary.mk 2 7 5 (some (DocMetadata.nfe nfeMetaEx))).merge
        (DocSummary.mk 1 5 3 none) :=
  ⟨c1_merge_comutativo_associativo.2.2.1 _ _ rfl,
   c1_merge_comutativo_associativo.2.2.2.1 _ _ (by norm_num)⟩

/-!
## DFS and closure lemmas (towards C2, C4, C10)
-/

/-- The DFS never unmarks a vertex. -/
theorem dfsVisit_mono [LinearOrder α] (adj : KMap α) (stack : List α) (visited : Finset α) :
    visited ⊆ dfsVisit adj stack visited := by
  induction stack, visited using dfsVisit.induct adj with
  | case1 visited =>
    rw [dfsVisit]
  | case2 c stack visited hc ih =>
    rw [dfsVisit, if_pos hc]
    exact ih
  | case3 c stack visited hc hd ih =>
    rw [dfsVisit, if_neg hc, if_pos hd]
    exact (Finset.subset_insert _ _).trans ih
  | case4 c stack visited hc hd ih =>
    rw [dfsVisit, if_neg hc, if_neg hd]
    exact (Finset.subset_insert _ _).trans ih

/-- Every vertex on the stack ends up visited. -/
theorem dfsVisit_stack_mem [LinearOrder α] (adj : KMap α) (stack : List α)
    (visited : Finset α) : ∀ c ∈ stack, c ∈ dfsVisit adj stack visited := by
  induction stack, visited using dfsVisit.induct adj with
  | case1 visited =>
    intro c hc
    exact absurd hc (List.not_mem_nil c)
  | case2 c stack visited hc ih =>
    intro x hx
    rw [dfsVisit, if_pos hc]
    rcases List.mem_cons.mp hx with h | h
    · exact dfsVisit_mono adj stack visited (h ▸ hc)
    · exact ih x h
  | case3 c stack visited hc hd ih =>
    intro x hx
    rw [dfsVisit, if_neg hc, if_pos hd]
    rcases List.mem_cons.mp hx with h | h
    · exact dfsVisit_mono adj _ _ (h ▸ Finset.mem_insert_self c visited)
    · exact ih x (List.mem_append_right _ h)
  | case4 c stack visited hc hd ih =>
    intro x hx
    rw [dfsVisit, if_neg hc, if_neg hd]
    rcases List.mem_cons.mp hx with h | h
    · exact dfsVisit_mono adj _ _ (h ▸ Finset.mem_insert_self c visited)
    · exact ih x h

/-- Soundness: the DFS only discovers vertices reachable from the stack. -/
theorem dfsVisit_sound [LinearOrder α] (adj : KMap α) (stack : List α)
    (visited : Finset α) : ∀ x ∈ dfsVisit adj stack visited,
      x ∈ visited ∨ ∃ s ∈ stack, Reaches adj s x := by
  induction stack, visited using dfsVisit.induct adj with
  | case1 visited =>
    intro x hx
    rw [dfsVisit] at hx
    exact Or.inl hx
  | case2 c stack visited hc ih =>
    intro x hx
    rw [dfsVisit, if_pos hc] at hx
    rcases ih x hx with h | ⟨s, hs, hr⟩
    · exact Or.inl h
    · exact Or.inr ⟨s, List.mem_cons_of_mem c hs, hr⟩
  | case3 c stack visited hc hd ih =>
    intro x hx
    rw [dfsVisit, if_neg hc, if_pos hd] at hx
    rcases ih x hx with h | ⟨s, hs, hr⟩
    · rcases Finset.mem_insert.mp h with h | h
      · exact Or.inr ⟨c, List.mem_cons_self c stack, h ▸ Relation.ReflTransGen.refl⟩
      · exact Or.inl h
    · rcases List.mem_append.mp hs with h | h
      · refine Or.inr ⟨c, List.mem_cons_self c stack, ?_⟩
        exact Relation.ReflTransGen.head ⟨hd, (Finset.mem_sort _).mp h⟩ hr
      · exact Or.inr ⟨s, List.mem_cons_of_mem c h, hr⟩
  | case4 c stack visited hc hd ih =>
    intro x hx
    rw [dfsVisit, if_neg hc, if_neg hd] at hx
    rcases ih x hx with h | ⟨s, hs, hr⟩
    · rcases Finset.mem_insert.mp h with h | h
      · exact Or.inr ⟨c, List.mem_cons_self c stack, h ▸ Relation.ReflTransGen.refl⟩
      · exact Or.inl h
    · exact Or.inr ⟨s, List.mem_cons_of_mem c hs, hr⟩

/-- Closure: if every visited vertex has its neighbours in `visited ∪ stack`,
the final visited set is closed under neighbour steps. -/
theorem dfsVisit_closed [LinearOrder α] (adj : KMap α) (stack : List α)
    (visited : Finset α)
    (hinv : ∀ x ∈ visited, x ∈ adj.dom → ∀ y ∈ adj.val x, y ∈ visited ∨ y ∈ stack) :
    ∀ x ∈ dfsVisit adj stack visited, x ∈ adj.dom →
      ∀ y ∈ adj.val x, y ∈ dfsVisit adj stack visited := by
  induction stack, visited using dfsVisit.induct adj with
  | case1 visited =>
    intro x hx hxd y hy
    rw [dfsVisit] at hx ⊢
    rcases hinv x hx hxd y hy with h | h
    · exact h
    · exact absurd h (List.not_mem_nil y)
  | case2 c stack visited hc ih =>
    rw [dfsVisit, if_pos hc]
    refine ih ?_
    intro x hx hxd y hy
    rcases hinv x hx hxd y hy with h | h
    · exact Or.inl h
    · rcases List.mem_cons.mp h with h | h
      · exact Or.inl (h ▸ hc)
      · exact Or.inr h
  | case3 c stack visited hc hd ih =>
    rw [dfsVisit, if_neg hc, if_pos hd]
    refine ih ?_
    intro x hx hxd y hy
    rcases Finset.mem_insert.mp hx with h | h
    · subst h
      exact Or.inr (List.mem_append_left _ ((Finset.mem_sort _).mpr hy))
    · rcases hinv x h hxd y hy with h2 | h2
      · exact Or.inl (Finset.mem_insert_of_mem h2)
      · rcases List.mem_cons.mp h2 with h3 | h3
        · exact Or.inl (h3 ▸ Finset.mem_insert_self c visited)
        · exact Or.inr (List.mem_append_right _ h3)
  | case4 c stack visited hc hd ih =>
    rw [dfsVisit, if_neg hc, if_neg hd]
    refine ih ?_
    intro x hx hxd y hy
    rcases Finset.mem_insert.mp hx with h | h
    · exact absurd (h ▸ hxd) hd
    · rcases hinv x h hxd y hy with h2 | h2
      · exact Or.inl (Finset.mem_insert_of_mem h2)
      · rcases List.mem_cons.mp h2 with h3 | h3
        · exact Or.inl (h3 ▸ Finset.mem_insert_self c visited)
        · exact Or.inr h3

/-- A set closed under neighbour steps absorbs everything reachable from its
members. -/
theorem reaches_mem_closed (adj : KMap α) (V : Finset α)
    (hcl : ∀ x ∈ V, x ∈ adj.dom → ∀ y ∈ adj.val x, y ∈ V) {x y : α}
    (hx : x ∈ V) (hr : Reaches adj x y) : y ∈ V := by
  induction hr with
  | refl => exact hx
  | tail _ hstep ih => exact hcl _ ih hstep.1 _ hstep.2

/-- Reachability along a symmetric adjacency structure is symmetric. -/
theorem reaches_symm (adj : KMap α) (hsym : AdjSymm adj) {u v : α}
    (h : Reaches adj u v) : Reaches adj v u := by
  refine Relation.ReflTransGen.symmetric ?_ h
  intro a b hab
  exact ⟨(hsym a b hab.2).2.2, (hsym a b hab.2).1⟩

/-- A vertex that reaches some other vertex is a key of the adjacency
structure (the first step requires it). -/
theorem reaches_ne_mem_dom (adj : KMap α) {a b : α} (hr : Reaches adj a b)
    (hne : b ≠ a) : a ∈ adj.dom := by
  rcases Relation.ReflTransGen.cases_head hr with h | ⟨c, hac, -⟩
  · exact absurd h.symm hne
  · exact hac.1

/-- Characterisation of one DFS launch: starting from `a` on top of a closed
visited set, the final visited set is the old one plus everything reachable
from `a`. -/
theorem dfsVisit_char [LinearOrder α] (adj : KMap α) (a : α) (visited : Finset α)
    (hcl : ∀ x ∈ visited, x ∈ adj.dom → ∀ y ∈ adj.val x, y ∈ visited) :
    ∀ x, x ∈ dfsVisit adj [a] visited ↔ (x ∈ visited ∨ Reaches adj a x) := by
  intro x
  constructor
  · intro hx
    rcases dfsVisit_sound adj [a] visited x hx with h | ⟨s, hs, hr⟩
    · exact Or.inl h
    · rcases List.mem_singleton.mp hs with rfl
      exact Or.inr hr
  · rintro (h | h)
    · exact dfsVisit_mono adj [a] visited h
    · refine reaches_mem_closed adj _ ?_ ?_ h
      · intro u hu hud y hy
        exact dfsVisit_closed adj [a] visited
          (fun z hz hzd y2 hy2 => Or.inl (hcl z hz hzd y2 hy2)) u hu hud y hy
      · exact dfsVisit_stack_mem adj [a] visited a (List.mem_singleton_self a)

/-- With a symmetric adjacency structure, a DFS launched on an unvisited
vertex discovers a set disjoint from the closed visited set. -/
theorem reaches_disjoint (adj : KMap α) (hsym : AdjSymm adj) (a : α)
    (visited : Finset α)
    (hcl : ∀ x ∈ visited, x ∈ adj.dom → ∀ y ∈ adj.val x, y ∈ visited)
    (ha : a ∉ visited) : ∀ x, Reaches adj a x → x ∉ visited := by
  intro x hr hx
  exact ha (reaches_mem_closed adj visited hcl hx (reaches_symm adj hsym hr))

/-- The symmetrised adjacency structure built by the closure pass satisfies
the symmetry shape invariant. -/
theorem symAdj_symm [DecidableEq α] (m : KMap α) : AdjSymm (symAdj m) := by
  intro u v hv
  rw [symAdj] at hv ⊢
  simp only [Finset.mem_union, Finset.mem_filter] at hv
  rcases hv with hv | hv
  · by_cases hu : u ∈ m.dom
    · rw [if_pos hu] at hv
      refine ⟨?_, ?_, ?_⟩
      · simp only [Finset.mem_union, Finset.mem_filter]
        exact Or.inr ⟨hu, hv⟩
      · simp only [Finset.mem_union, Finset.mem_filter]
        exact Or.inl ⟨hu, fun he => by simp [he] at hv⟩
      · simp only [Finset.mem_union, Finset.mem_biUnion]
        exact Or.inr ⟨u, hu, hv⟩
    · rw [if_neg hu] at hv
      exact absurd hv (Finset.not_mem_empty v)
  · obtain ⟨hvd, huv⟩ := hv
    refine ⟨?_, ?_, ?_⟩
    · simp only [Finset.mem_union, Finset.mem_filter]
      rw [if_pos hvd]
      exact Or.inl huv
    · simp only [Finset.mem_union, Finset.mem_biUnion]
      exact Or.inr ⟨v, hvd, huv⟩
    · simp only [Finset.mem_union, Finset.mem_filter]
      exact Or.inl ⟨hvd, fun he => by simp [he] at huv⟩

/-- The member loop of the clique step: folding the insertions over any list
of group members yields the map whose listed members map to the group minus
themselves, everything else untouched. -/
theorem cliqueFold_spec [LinearOrder α] (group : Finset α) (hcard : 1 < group.card) :
    ∀ (l : List α), (∀ x ∈ l, x ∈ group) → ∀ out : KMap α,
      ((l.foldl
          (fun o mem => if group.erase mem ≠ ∅ then o.insertSet mem (group.erase mem) else o)
          out).dom = out.dom ∪ l.toFinset ∧
       ∀ a, (l.foldl
          (fun o mem => if group.erase mem ≠ ∅ then o.insertSet mem (group.erase mem) else o)
          out).val a = if a ∈ l then group.erase a else out.val a) := by
  intro l
  induction l with
  | nil =>
    intro _ out
    constructor
    · simp
    · intro a
      simp
  | cons m rest ih =>
    intro hmem out
    have hm : m ∈ group := hmem m (List.mem_cons_self m rest)
    have hne : group.erase m ≠ ∅ := by
      have : 0 < (group.erase m).card := by
        rw [Finset.card_erase_of_mem hm]
        omega
      exact Finset.Nonempty.ne_empty (Finset.card_pos.mp this)
    rw [List.foldl_cons, if_pos hne]
    obtain ⟨ihdom, ihval⟩ := ih (fun x hx => hmem x (List.mem_cons_of_mem m hx))
      (out.insertSet m (group.erase m))
    constructor
    · rw [ihdom]
      rw [KMap.insertSet]
      ext x
      simp only [Finset.mem_union, Finset.mem_insert, List.toFinset_cons]
      tauto
    · intro a
      rw [ihval a, KMap.insertSet]
      by_cases ha : a ∈ rest
      · rw [if_pos ha, if_pos (List.mem_cons_of_mem m ha)]
      · rw [if_neg ha]
        by_cases ham : a = m
        · subst ham
          rw [if_pos (List.mem_cons_self a rest)]
          simp
        · rw [if_neg (fun h => by
            rcases List.mem_cons.mp h with h | h
            · exact ham h
            · exact ha h)]
          simp only [if_neg ham]

/-- Master invariant of the component loop: starting from a closed visited set
and an output map holding exactly the cliques of the already-processed
components, processing the remaining keys yields the map in which `a` maps to
everything reachable from `a` except itself, for every `a` in a component of
size at least two. -/
theorem expandLoop_spec [LinearOrder α] (adj : KMap α) (hsym : AdjSymm adj)
    (keys : List α) : ∀ (visited : Finset α) (out : KMap α),
    (∀ x ∈ visited, x ∈ adj.dom → ∀ y ∈ adj.val x, y ∈ visited) →
    (∀ a, a ∈ out.dom ↔ (a ∈ visited ∧ ∃ b, b ≠ a ∧ Reaches adj a b)) →
    (∀ a x, x ∈ out.val a ↔ (a ∈ out.dom ∧ x ≠ a ∧ Reaches adj a x)) →
    (∀ a ∈ adj.dom, a ∈ visited ∨ a ∈ keys) →
    ((∀ a, a ∈ (expandLoop adj keys visited out).dom ↔ ∃ b, b ≠ a ∧ Reaches adj a b) ∧
     (∀ a x, x ∈ (expandLoop adj keys visited out).val a ↔ (x ≠ a ∧ Reaches adj a x))) := by
  induction keys with
  | nil =>
    intro visited out hcl hdom hval hcover
    rw [expandLoop]
    constructor
    · intro a
      rw [hdom a]
      constructor
      · rintro ⟨-, h⟩
        exact h
      · intro h
        refine ⟨?_, h⟩
        obtain ⟨b, hb, hr⟩ := h
        rcases hcover a (reaches_ne_mem_dom adj hr hb) with h2 | h2
        · exact h2
        · exact absurd h2 (List.not_mem_nil a)
    · intro a x
      rw [hval a x, hdom a]
      constructor
      · rintro ⟨-, h1, h2⟩
        exact ⟨h1, h2⟩
      · rintro ⟨h1, h2⟩
        have had : a ∈ adj.dom := reaches_ne_mem_dom adj h2 h1
        rcases hcover a had with h3 | h3
        · exact ⟨⟨h3, x, h1, h2⟩, h1, h2⟩
        · exact absurd h3 (List.not_mem_nil a)
  | cons node keys ih =>
    intro visited out hcl hdom hval hcover
    by_cases hnode : node ∈ visited
    · rw [expandLoop, if_pos hnode]
      refine ih visited out hcl hdom hval ?_
      intro a ha
      rcases hcover a ha with h | h
      · exact Or.inl h
      · rcases List.mem_cons.mp h with h | h
        · exact Or.inl (h ▸ hnode)
        · exact Or.inr h
    · rw [expandLoop, if_neg hnode]
      have hchar := dfsVisit_char adj node visited hcl
      have hdisj := reaches_disjoint adj hsym node visited hcl hnode
      have hgroup : ∀ x, x ∈ dfsVisit adj [node] visited \ visited ↔ Reaches adj node x := by
        intro x
        rw [Finset.mem_sdiff, hchar x]
        constructor
        · rintro ⟨h | h, h2⟩
          · exact absurd h h2
          · exact h
        · intro h
          exact ⟨Or.inr h, hdisj x h⟩
      have hcl2 : ∀ x ∈ dfsVisit adj [node] visited, x ∈ adj.dom →
          ∀ y ∈ adj.val x, y ∈ dfsVisit adj [node] visited := by
        intro x hx hxd y hy
        rcases (hchar x).mp hx with h | h
        · exact (hchar y).mpr (Or.inl (hcl x h hxd y hy))
        · exact (hchar y).mpr (Or.inr (Relation.ReflTransGen.tail h ⟨hxd, hy⟩))
      have hsubV : visited ⊆ dfsVisit adj [node] visited := dfsVisit_mono adj [node] visited
      have hcover2 : ∀ a ∈ adj.dom, a ∈ dfsVisit adj [node] visited ∨ a ∈ keys := by
        intro a ha
        rcases hcover a ha with h | h
        · exact Or.inl (hsubV h)
        · rcases List.mem_cons.mp h with h | h
          · exact Or.inl
              (h ▸ dfsVisit_stack_mem adj [node] visited node (List.mem_singleton_self node))
          · exact Or.inr h
      have hreach_trans : ∀ a x, Reaches adj node a →
          (Reaches adj a x ↔ Reaches adj node x) := by
        intro a x hna
        constructor
        · intro h
          exact Relation.ReflTransGen.trans hna h
        · intro h
          exact Relation.ReflTransGen.trans (reaches_symm adj hsym hna) h
      by_cases hc : 1 < (dfsVisit adj [node] visited \ visited).card
      · have hfold := cliqueFold_spec (dfsVisit adj [node] visited \ visited) hc
          ((dfsVisit adj [node] visited \ visited).sort (· ≤ ·))
          (fun x hx => (Finset.mem_sort _).mp hx) out
        have hdom2 : ∀ a, a ∈ (insertClique (dfsVisit adj [node] visited \ visited) out).dom ↔
            (a ∈ dfsVisit adj [node] visited ∧ ∃ b, b ≠ a ∧ Reaches adj a b) := by
          intro a
          rw [insertClique, if_pos hc, hfold.1, Finset.sort_toFinset]
          constructor
          · intro h
            rcases Finset.mem_union.mp h with h | h
            · obtain ⟨hv, hb⟩ := (hdom a).mp h
              exact ⟨hsubV hv, hb⟩
            · have hna : Reaches adj node a := (hgroup a).mp h
              obtain ⟨b, hbmem, hbne⟩ := Finset.exists_ne_of_one_lt_card hc a
              refine ⟨(hchar a).mpr (Or.inr hna), b, hbne, ?_⟩
              exact (hreach_trans a b hna).mpr ((hgroup b).mp hbmem)
          · rintro ⟨hv, b, hbne, hbr⟩
            rcases (hchar a).mp hv with h | h
            · exact Finset.mem_union_left _ ((hdom a).mpr ⟨h, b, hbne, hbr⟩)
            · exact Finset.mem_union_right _ ((hgroup a).mpr h)
        have hval2' : ∀ a x,
            x ∈ (insertClique (dfsVisit adj [node] visited \ visited) out).val a ↔
            ((a ∈ dfsVisit adj [node] visited ∧ ∃ b, b ≠ a ∧ Reaches adj a b) ∧
              x ≠ a ∧ Reaches adj a x) := by
          intro a x
          rw [insertClique, if_pos hc, hfold.2 a]
          by_cases ha : a ∈ (dfsVisit adj [node] visited \ visited).sort (· ≤ ·)
          · rw [if_pos ha]
            have hag : Reaches adj node a := (hgroup a).mp ((Finset.mem_sort _).mp ha)
            constructor
            · intro hx
              obtain ⟨hxne, hxg⟩ := Finset.mem_erase.mp hx
              have hxr : Reaches adj a x := (hreach_trans a x hag).mpr ((hgroup x).mp hxg)
              refine ⟨⟨(hchar a).mpr (Or.inr hag), ?_⟩, hxne, hxr⟩
              obtain ⟨b, hbmem, hbne⟩ := Finset.exists_ne_of_one_lt_card hc a
              exact ⟨b, hbne, (hreach_trans a b hag).mpr ((hgroup b).mp hbmem)⟩
            · rintro ⟨-, hxne, hxr⟩
              refine Finset.mem_erase.mpr ⟨hxne, ?_⟩
              exact (hgroup x).mpr ((hreach_trans a x hag).mp hxr)
          · rw [if_neg ha]
            have hanotg : a ∉ dfsVisit adj [node] visited \ visited :=
              fun h => ha ((Finset.mem_sort _).mpr h)
            rw [hval a x, hdom a]
            constructor
            · rintro ⟨⟨hav, hb⟩, hxne, hxr⟩
              exact ⟨⟨hsubV hav, hb⟩, hxne, hxr⟩
            · rintro ⟨⟨hav, hb⟩, hxne, hxr⟩
              rcases (hchar a).mp hav with h | h
              · exact ⟨⟨h, hb⟩, hxne, hxr⟩
              · exact absurd ((hgroup a).mpr h) hanotg
        have hval2 : ∀ a x,
            x ∈ (insertClique (dfsVisit adj [node] visited \ visited) out).val a ↔
            (a ∈ (insertClique (dfsVisit adj [node] visited \ visited) out).dom ∧
              x ≠ a ∧ Reaches adj a x) := by
          intro a x
          rw [hval2' a x]
          exact (and_congr_left' (hdom2 a)).symm
        exact ih (dfsVisit adj [node] visited)
          (insertClique (dfsVisit adj [node] visited \ visited) out) hcl2 hdom2 hval2 hcover2
      · have hout2 : insertClique (dfsVisit adj [node] visited \ visited) out = out := by
          rw [insertClique, if_neg hc]
        have hgone : dfsVisit adj [node] visited \ visited = {node} := by
          have hn : node ∈ dfsVisit adj [node] visited \ visited :=
            (hgroup node).mpr Relation.ReflTransGen.refl
          have hcard1 : (dfsVisit adj [node] visited \ visited).card = 1 := by
            have : 0 < (dfsVisit adj [node] visited \ visited).card :=
              Finset.card_pos.mpr ⟨node, hn⟩
            omega
          obtain ⟨y, hy⟩ := Finset.card_eq_one.mp hcard1
          rw [hy] at hn ⊢
          rw [← Finset.mem_singleton.mp hn]
        have hdom2 : ∀ a, a ∈ out.dom ↔
            (a ∈ dfsVisit adj [node] visited ∧ ∃ b, b ≠ a ∧ Reaches adj a b) := by
          intro a
          rw [hdom a]
          constructor
          · rintro ⟨hv, hb⟩
            exact ⟨hsubV hv, hb⟩
          · rintro ⟨hv, b, hbne, hbr⟩
            rcases (hchar a).mp hv with h | h
            · exact ⟨h, b, hbne, hbr⟩
            · exfalso
              have hag : a ∈ dfsVisit adj [node] visited \ visited := (hgroup a).mpr h
              rw [hgone, Finset.mem_singleton] at hag
              have hbg : b ∈ dfsVisit adj [node] visited \ visited :=
                (hgroup b).mpr ((hreach_trans a b h).mp hbr)
              rw [hgone, Finset.mem_singleton] at hbg
              exact hbne (hbg.trans hag.symm)
        rw [hout2]
        exact ih (dfsVisit adj [node] visited) out hcl2 hdom2 hval hcover2

/-- Characterisation of the complement closure: after
`expandir_cte_complementar`, a key is present exactly when it is connected to
some other key, and it maps to everything connected to it except itself. -/
theorem expandir_spec [LinearOrder α] (m : KMap α) :
    (∀ a, a ∈ (expandir m).dom ↔ ∃ b, b ≠ a ∧ Reaches (symAdj m) a b) ∧
    (∀ a x, x ∈ (expandir m).val a ↔ (x ≠ a ∧ Reaches (symAdj m) a x)) := by
  rw [expandir]
  apply expandLoop_spec (symAdj m) (symAdj_symm m)
  · intro x hx
    exact absurd hx (Finset.not_mem_empty x)
  · intro a
    simp [KMap.empty]
  · intro a x
    simp [KMap.empty]
  · intro a ha
    exact Or.inr ((Finset.mem_sort _).mpr ha)

/-- A key absent from the closure result has an empty set (the closure only
inserts nonempty `others` sets for present keys). -/
theorem expandir_val_off_dom [LinearOrder α] (m : KMap α) (a : α)
    (ha : a ∉ (expandir m).dom) : (expandir m).val a = ∅ := by
  ext x
  simp only [Finset.not_mem_empty, iff_false]
  intro hx
  obtain ⟨hxa, hr⟩ := ((expandir_spec m).2 a x).mp hx
  exact ha (((expandir_spec m).1 a).mpr ⟨x, hxa, hr⟩)

/-- A key is present in the closure result exactly when its set is nonempty. -/
theorem expandir_dom_iff_nonempty [LinearOrder α] (m : KMap α) (a : α) :
    a ∈ (expandir m).dom ↔ (expandir m).val a ≠ ∅ := by
  constructor
  · intro ha
    obtain ⟨b, hbne, hbr⟩ := ((expandir_spec m).1 a).mp ha
    intro hempty
    have : b ∈ (expandir m).val a := ((expandir_spec m).2 a b).mpr ⟨hbne, hbr⟩
    rw [hempty] at this
    exact absurd this (Finset.not_mem_empty b)
  · intro hne
    obtain ⟨x, hx⟩ := Finset.nonempty_iff_ne_empty.mpr hne
    obtain ⟨hxa, hr⟩ := ((expandir_spec m).2 a x).mp hx
    exact ((expandir_spec m).1 a).mpr ⟨x, hxa, hr⟩

/-- Symmetrising the (already symmetric, self-free, nonempty-valued) closure
result changes nothing. -/
theorem symAdj_expandir [LinearOrder α] (m : KMap α) :
    ((symAdj (expandir m)).dom = (expandir m).dom ∧
     ∀ a, (symAdj (expandir m)).val a = (expandir m).val a) := by
  have hsymm : ∀ u v, v ∈ (expandir m).val u → u ∈ (expandir m).val v := by
    intro u v hv
    obtain ⟨hne, hr⟩ := ((expandir_spec m).2 u v).mp hv
    exact ((expandir_spec m).2 v u).mpr
      ⟨fun h => hne h.symm, reaches_symm _ (symAdj_symm m) hr⟩
  have hmemdom : ∀ u v, v ∈ (expandir m).val u → v ∈ (expandir m).dom := by
    intro u v hv
    rw [expandir_dom_iff_nonempty]
    intro hempty
    have := hsymm u v hv
    rw [hempty] at this
    exact absurd this (Finset.not_mem_empty u)
  constructor
  · ext u
    rw [symAdj]
    simp only [Finset.mem_union, Finset.mem_filter, Finset.mem_biUnion]
    constructor
    · rintro (⟨h, -⟩ | ⟨w, hw, hu⟩)
      · exact h
      · exact hmemdom w u hu
    · intro h
      exact Or.inl ⟨h, (expandir_dom_iff_nonempty m u).mp h⟩
  · intro a
    rw [symAdj]
    ext x
    simp only [Finset.mem_union, Finset.mem_filter]
    constructor
    · rintro (h | ⟨-, hx⟩)
      · by_cases ha : a ∈ (expandir m).dom
        · rw [if_pos ha] at h
          exact h
        · rw [if_neg ha] at h
          exact absurd h (Finset.not_mem_empty x)
      · exact hsymm x a hx
    · intro h
      by_cases ha : a ∈ (expandir m).dom
      · rw [if_pos ha]
        exact Or.inl h
      · exfalso
        rw [expandir_val_off_dom m a ha] at h
        exact absurd h (Finset.not_mem_empty x)

/-- Reachability over the symmetrised closure result is one clique hop:
`x` is reachable from `a` exactly when it is `a` itself or in `a`'s set. -/
theorem reaches_symAdj_expandir [LinearOrder α] (m : KMap α) (a x : α) :
    Reaches (symAdj (expandir m)) a x ↔ (x = a ∨ x ∈ (expandir m).val a) := by
  constructor
  · intro h
    induction h with
    | refl => exact Or.inl rfl
    | tail hab hstep ih =>
      rename_i u v
      have hv : v ∈ (expandir m).val u := by
        rw [← (symAdj_expandir m).2 u]
        exact hstep.2
      rcases ih with h | h
      · exact Or.inr (h ▸ hv)
      · obtain ⟨hua, hau⟩ := ((expandir_spec m).2 a u).mp h
        obtain ⟨hvu, huv⟩ := ((expandir_spec m).2 u v).mp hv
        by_cases hva : v = a
        · exact Or.inl hva
        · exact Or.inr (((expandir_spec m).2 a v).mpr
            ⟨hva, Relation.ReflTransGen.trans hau huv⟩)
  · rintro (rfl | h)
    · exact Relation.ReflTransGen.refl
    · refine Relation.ReflTransGen.single ⟨?_, ?_⟩
      · rw [(symAdj_expandir m).1]
        rw [expandir_dom_iff_nonempty]
        intro hempty
        rw [hempty] at h
        exact absurd h (Finset.not_mem_empty x)
      · rw [(symAdj_expandir m).2 a]
        exact h

/-- One-step adjacency of the symmetrised chain `a -> b`, `b -> c`. -/
theorem mapCadeia_step (a b c : Chave) (hab : a ≠ b) (hac : a ≠ c) (hbc : b ≠ c) :
    ∀ u x, x ∈ (symAdj (mapCadeia a b c)).val u ↔
      ((u = a ∧ x = b) ∨ (u = b ∧ (x = a ∨ x = c)) ∨ (u = c ∧ x = b)) := by
  intro u x
  rw [symAdj, mapCadeia]
  simp only [Finset.mem_union, Finset.mem_filter, Finset.mem_insert, Finset.mem_singleton]
  by_cases hua : u = a <;> by_cases hub : u = b <;> by_cases huc : u = c <;>
    by_cases hxa : x = a <;> by_cases hxb : x = b <;> by_cases hxc : x = c <;>
    simp_all

/-- The symmetrised chain has the three keys as its key set. -/
theorem mapCadeia_dom (a b c : Chave) (hab : a ≠ b) (hac : a ≠ c) (hbc : b ≠ c) :
    ∀ u, u ∈ (symAdj (mapCadeia a b c)).dom ↔ (u = a ∨ u = b ∨ u = c) := by
  intro u
  rw [symAdj, mapCadeia]
  simp only [Finset.mem_union, Finset.mem_filter, Finset.mem_biUnion, Finset.mem_insert,
    Finset.mem_singleton]
  by_cases hua : u = a <;> by_cases hub : u = b <;> by_cases huc : u = c <;> simp_all
  · rw [if_neg (fun h => hab h.symm)]
    simp
  · rw [if_neg (fun h => hab h.symm)]
    simp [huc]

/-- Reachability in the symmetrised chain: from any of the three keys,
exactly the three keys are reachable. -/
theorem mapCadeia_reaches (a b c : Chave) (hab : a ≠ b) (hac : a ≠ c) (hbc : b ≠ c) :
    ∀ u, (u = a ∨ u = b ∨ u = c) →
      ∀ x, (Reaches (symAdj (mapCadeia a b c)) u x ↔ (x = a ∨ x = b ∨ x = c)) := by
  have hstep := mapCadeia_step a b c hab hac hbc
  have hdom := mapCadeia_dom a b c hab hac hbc
  have hRab : Reaches (symAdj (mapCadeia a b c)) a b :=
    Relation.ReflTransGen.single ⟨(hdom a).mpr (Or.inl rfl), (hstep a b).mpr (Or.inl ⟨rfl, rfl⟩)⟩
  have hRba : Reaches (symAdj (mapCadeia a b c)) b a :=
    Relation.ReflTransGen.single
      ⟨(hdom b).mpr (Or.inr (Or.inl rfl)), (hstep b a).mpr (Or.inr (Or.inl ⟨rfl, Or.inl rfl⟩))⟩
  have hRbc : Reaches (symAdj (mapCadeia a b c)) b c :=
    Relation.ReflTransGen.single
      ⟨(hdom b).mpr (Or.inr (Or.inl rfl)), (hstep b c).mpr (Or.inr (Or.inl ⟨rfl, Or.inr rfl⟩))⟩
  have hRcb : Reaches (symAdj (mapCadeia a b c)) c b :=
    Relation.ReflTransGen.single
      ⟨(hdom c).mpr (Or.inr (Or.inr rfl)), (hstep c b).mpr (Or.inr (Or.inr ⟨rfl, rfl⟩))⟩
  intro u hu x
  constructor
  · intro h
    induction h with
    | refl => exact hu
    | tail hpath hstp ih =>
      rename_i y z
      rcases (hstep y z).mp hstp.2 with ⟨-, h2⟩ | ⟨-, h2⟩ | ⟨-, h2⟩
      · exact Or.inr (Or.inl h2)
      · rcases h2 with h2 | h2
        · exact Or.inl h2
        · exact Or.inr (Or.inr h2)
      · exact Or.inr (Or.inl h2)
  · intro hx
    rcases hu with rfl | rfl | rfl <;> rcases hx with rfl | rfl | rfl
    · exact Relation.ReflTransGen.refl
    · exact hRab
    · exact Relation.ReflTransGen.trans hRab hRbc
    · exact hRba
    · exact Relation.ReflTransGen.refl
    · exact hRbc
    · exact Relation.ReflTransGen.trans hRcb hRba
    · exact hRcb
    · exact Relation.ReflTransGen.refl

/-- C2: after the connected-component closure, the complement map is symmetric
and transitively closed, no key appears in its own set, any two distinct keys
connected by a path of complement edges list each other, running the closure a
second time yields the same map, and for a complement chain A-B, B-C of
distinct manifest-typed keys the resulting sets are exactly {B,C}, {A,C} and
{A,B}. -/
theorem c2_fecho_complementar :
    (∀ (m : KMap Chave) (a b : Chave),
      b ∈ (expandir m).val a → a ∈ (expandir m).val b) ∧
    (∀ (m : KMap Chave) (a b c : Chave), b ∈ (expandir m).val a →
      c ∈ (expandir m).val b → c ≠ a → c ∈ (expandir m).val a) ∧
    (∀ (m : KMap Chave) (a : Chave), a ∉ (expandir m).val a) ∧
    (∀ (m : KMap Chave) (a b : Chave), Reaches (symAdj m) a b → b ≠ a →
      b ∈ (expandir m).val a) ∧
    (∀ m : KMap Chave, (expandir (expandir m)).dom = (expandir m).dom ∧
      ∀ a, (expandir (expandir m)).val a = (expandir m).val a) ∧
    (∀ a b c : Chave, a ≠ b → a ≠ c → b ≠ c →
      a.isCte = true → b.isCte = true → c.isCte = true →
      ((expandir (mapCadeia a b c)).val a = {b, c} ∧
       (expandir (mapCadeia a b c)).val b = {a, c} ∧
       (expandir (mapCadeia a b c)).val c = {a, b})) := by
  refine ⟨?_, ?_, ?_, ?_, ?_, ?_⟩
  · intro m a b h
    obtain ⟨hne, hr⟩ := ((expandir_spec m).2 a b).mp h
    exact ((expandir_spec m).2 b a).mpr
      ⟨fun he => hne he.symm, reaches_symm _ (symAdj_symm m) hr⟩
  · intro m a b c hb hc hca
    obtain ⟨-, hab⟩ := ((expandir_spec m).2 a b).mp hb
    obtain ⟨-, hbc⟩ := ((expandir_spec m).2 b c).mp hc
    exact ((expandir_spec m).2 a c).mpr ⟨hca, Relation.ReflTransGen.trans hab hbc⟩
  · intro m a h
    exact (((expandir_spec m).2 a a).mp h).1 rfl
  · intro m a b hr hne
    exact ((expandir_spec m).2 a b).mpr ⟨hne, hr⟩
  · intro m
    constructor
    · ext u
      rw [(expandir_spec (expandir m)).1 u]
      constructor
      · rintro ⟨b, hbne, hbr⟩
        rcases (reaches_symAdj_expandir m u b).mp hbr with h | h
        · exact absurd h hbne
        · refine (expandir_dom_iff_nonempty m u).mpr ?_
          intro hempty
          rw [hempty] at h
          exact absurd h (Finset.not_mem_empty b)
      · intro hu
        obtain ⟨b, hb⟩ :=
          Finset.nonempty_iff_ne_empty.mpr ((expandir_dom_iff_nonempty m u).mp hu)
        have hbne : b ≠ u := (((expandir_spec m).2 u b).mp hb).1
        exact ⟨b, hbne, (reaches_symAdj_expandir m u b).mpr (Or.inr hb)⟩
    · intro a
      ext x
      rw [(expandir_spec (expandir m)).2 a x]
      constructor
      · rintro ⟨hxa, hr⟩
        rcases (reaches_symAdj_expandir m a x).mp hr with h | h
        · exact absurd h hxa
        · exact h
      · intro hx
        exact ⟨(((expandir_spec m).2 a x).mp hx).1,
          (reaches_symAdj_expandir m a x).mpr (Or.inr hx)⟩
  · intro a b c hab hac hbc _ _ _
    have hreach := mapCadeia_reaches a b c hab hac hbc
    refine ⟨?_, ?_, ?_⟩
    · ext x
      rw [(expandir_spec (mapCadeia a b c)).2 a x, hreach a (Or.inl rfl) x]
      simp only [Finset.mem_insert, Finset.mem_singleton]
      constructor
      · rintro ⟨hxa, h | h | h⟩
        · exact absurd h hxa
        · exact Or.inl h
        · exact Or.inr h
      · rintro (rfl | rfl)
        · exact ⟨fun h => hab h.symm, Or.inr (Or.inl rfl)⟩
        · exact ⟨fun h => hac h.symm, Or.inr (Or.inr rfl)⟩
    · ext x
      rw [(expandir_spec (mapCadeia a b c)).2 b x, hreach b (Or.inr (Or.inl rfl)) x]
      simp only [Finset.mem_insert, Finset.mem_singleton]
      constructor
      · rintro ⟨hxb, h | h | h⟩
        · exact Or.inl h
        · exact absurd h hxb
        · exact Or.inr h
      · rintro (rfl | rfl)
        · exact ⟨hab, Or.inl rfl⟩
        · exact ⟨fun h => hbc h.symm, Or.inr (Or.inr rfl)⟩
    · ext x
      rw [(expandir_spec (mapCadeia a b c)).2 c x, hreach c (Or.inr (Or.inr rfl)) x]
      simp only [Finset.mem_insert, Finset.mem_singleton]
      constructor
      · rintro ⟨hxc, h | h | h⟩
        · exact Or.inl h
        · exact Or.inr h
        · exact absurd h hxc
      · rintro (rfl | rfl)
        · exact ⟨fun h => hac h, Or.inl rfl⟩
        · exact ⟨fun h => hbc h, Or.inr (Or.inl rfl)⟩

/-- Closed instance of `c2_fecho_complementar`: the concrete chain of three
distinct manifest keys expands to the full clique. -/
theorem c2_witness :
    (expandir (mapCadeia chaveCteA chaveCteB chaveCteC)).val chaveCteA =
      {chaveCteB, chaveCteC} ∧
    (expandir (mapCadeia chaveCteA chaveCteB chaveCteC)).val chaveCteB =
      {chaveCteA, chaveCteC} ∧
    (expandir (mapCadeia chaveCteA chaveCteB chaveCteC)).val chaveCteC =
      {chaveCteA, chaveCteB} :=
  c2_fecho_complementar.2.2.2.2.2 chaveCteA chaveCteB chaveCteC
    (by decide) (by decide) (by decide) (by decide) (by decide) (by decide)

/-- C4: after propagation, every manifest `b` in the complement set of a
manifest `a` that owns invoices has inherited all of `a`'s invoices; in
particular, if `a` owns exactly `{x}` and its complement set is exactly `{b}`,
then `b`'s invoice set contains `x`. -/
theorem c4_propagacao_de_nfes :
    (∀ (cn cc : KMap Chave) (a b : Chave), a ∈ cn.dom → a ∈ cc.dom →
      b ∈ cc.val a →
      (b ∈ (propagar cn cc).dom ∧ cn.val a ⊆ (propagar cn cc).val b)) ∧
    (∀ (cn cc : KMap Chave) (a b x : Chave), a ∈ cn.dom → a ∈ cc.dom →
      cn.val a = {x} → cc.val a = {b} → x ∈ (propagar cn cc).val b) := by
  have hmain : ∀ (cn cc : KMap Chave) (a b : Chave), a ∈ cn.dom → a ∈ cc.dom →
      b ∈ cc.val a →
      (b ∈ (propagar cn cc).dom ∧ cn.val a ⊆ (propagar cn cc).val b) := by
    intro cn cc a b hacn hacc hb
    constructor
    · rw [propagar]
      simp only [Finset.mem_union, Finset.mem_biUnion, Finset.mem_inter]
      exact Or.inr ⟨a, ⟨hacn, hacc⟩, hb⟩
    · intro x hx
      rw [propagar]
      simp only [Finset.mem_union, Finset.mem_biUnion, Finset.mem_filter, Finset.mem_inter]
      exact Or.inr ⟨a, ⟨⟨hacn, hacc⟩, hb⟩, hx⟩
  refine ⟨hmain, ?_⟩
  intro cn cc a b x hacn hacc hcn hcc
  refine (hmain cn cc a b hacn hacc ?_).2 ?_
  · rw [hcc]
    exact Finset.mem_singleton_self b
  · rw [hcn]
    exact Finset.mem_singleton_self x

set_option maxRecDepth 8192 in
/-- Closed instance of `c4_propagacao_de_nfes`: a manifest owning one invoice
whose complement set is one other manifest propagates that invoice. -/
theorem c4_witness :
    chaveNfeX ∈ (propagar
      (KMap.mk {chaveCteA} (fun k => if k = chaveCteA then {chaveNfeX} else ∅))
      (KMap.mk {chaveCteA} (fun k => if k = chaveCteA then {chaveCteB} else ∅))).val
      chaveCteB :=
  c4_propagacao_de_nfes.2
    (KMap.mk {chaveCteA} (fun k => if k = chaveCteA then {chaveNfeX} else ∅))
    (KMap.mk {chaveCteA} (fun k => if k = chaveCteA then {chaveCteB} else ∅))
    chaveCteA chaveCteB chaveNfeX
    (by decide) (by decide) (by decide) (by decide)

/-- Folding union-insertions never loses an existing entry. -/
theorem extendFold_mono (ps : List (Chave × Finset Chave)) :
    ∀ (m : KMap Chave) (k : Chave), k ∈ m.dom →
      (k ∈ (ps.foldl (fun m p => m.extendSet p.1 p.2) m).dom ∧
       m.val k ⊆ (ps.foldl (fun m p => m.extendSet p.1 p.2) m).val k) := by
  induction ps with
  | nil =>
    intro m k hk
    rw [List.foldl_nil]
    exact ⟨hk, fun x hx => hx⟩
  | cons p rest ih =>
    intro m k hk
    rw [List.foldl_cons]
    have hstep := ih (m.extendSet p.1 p.2) k
    rw [KMap.extendSet] at hstep
    obtain ⟨hdom, hsub⟩ := hstep (Finset.mem_insert_of_mem hk)
    refine ⟨hdom, fun x hx => hsub ?_⟩
    simp only
    by_cases hkp : k = p.1
    · rw [if_pos hkp, if_pos (hkp ▸ hk)]
      exact Finset.mem_union_left _ (hkp ▸ hx)
    · rw [if_neg hkp]
      exact hx

/-- Every pair of the fold input lands in the folded map: the key is present
and its set contains the pair's elements. -/
theorem extendFold_mem (ps : List (Chave × Finset Chave)) :
    ∀ (m : KMap Chave) (k : Chave) (s : Finset Chave), (k, s) ∈ ps →
      ∀ x ∈ s, (k ∈ (ps.foldl (fun m p => m.extendSet p.1 p.2) m).dom ∧
        x ∈ (ps.foldl (fun m p => m.extendSet p.1 p.2) m).val k) := by
  induction ps with
  | nil =>
    intro m k s hks
    exact absurd hks (List.not_mem_nil _)
  | cons p rest ih =>
    intro m k s hks x hx
    rw [List.foldl_cons]
    rcases List.mem_cons.mp hks with h | h
    · have hk : k ∈ (m.extendSet p.1 p.2).dom := by
        rw [KMap.extendSet]
        rw [← h]
        exact Finset.mem_insert_self k m.dom
      obtain ⟨hdom, hsub⟩ := extendFold_mono rest (m.extendSet p.1 p.2) k hk
      refine ⟨hdom, hsub ?_⟩
      rw [KMap.extendSet]
      simp only
      rw [← h]
      rw [if_pos rfl]
      exact Finset.mem_union_right _ hx
    · exact ih (m.extendSet p.1 p.2) k s h x hx

/-- C6: in the manifest-to-invoice parse, a line whose first key is
manifest-typed contributes exactly that key with the line's invoice-typed
keys; for every loaded input, each such line's invoice keys end up in the
resulting map under the line's manifest key; and a line whose first key is
not manifest-typed (or that has no keys) contributes nothing: dropping it
leaves the resulting map unchanged. -/
theorem c6_primeiro_cte_da_linha :
    (∀ (line : List Nat) (c : Chave) (rest : List Chave),
      chavesDaLinha line = c :: rest → c.isCte = true →
      rest.filter Chave.isNfe ≠ [] →
      parseLinhaCteNfes line = some (c, (rest.filter Chave.isNfe).toFinset)) ∧
    (∀ line : List Nat,
      (∀ (c : Chave) (rest : List Chave), chavesDaLinha line = c :: rest →
        c.isCte = false) →
      parseLinhaCteNfes line = none) ∧
    (∀ (ε : Type) (results : List (Except ε (List Nat))) (line : List Nat)
      (c : Chave) (rest : List Chave),
      Except.ok line ∈ results → chavesDaLinha line = c :: rest → c.isCte = true →
      ∀ n ∈ rest, n.isNfe = true →
        (c ∈ (lerTodasAsNfesDesteCte results).dom ∧
         n ∈ (lerTodasAsNfesDesteCte results).val c)) ∧
    (∀ (ε : Type) (res1 res2 : List (Except ε (List Nat))) (line : List Nat),
      (∀ (c : Chave) (rest : List Chave), chavesDaLinha line = c :: rest →
        c.isCte = false) →
      lerTodasAsNfesDesteCte (res1 ++ Except.ok line :: res2) =
        lerTodasAsNfesDesteCte (res1 ++ res2)) := by
  have hpos : ∀ (line : List Nat) (c : Chave) (rest : List Chave),
      chavesDaLinha line = c :: rest → c.isCte = true →
      rest.filter Chave.isNfe ≠ [] →
      parseLinhaCteNfes line = some (c, (rest.filter Chave.isNfe).toFinset) := by
    intro line c rest hch hcte hne
    rw [parseLinhaCteNfes, hch]
    simp only [hcte, if_true]
    rw [if_neg (fun h => hne (by rwa [List.toFinset_eq_empty_iff] at h))]
  have hneg : ∀ line : List Nat,
      (∀ (c : Chave) (rest : List Chave), chavesDaLinha line = c :: rest →
        c.isCte = false) →
      parseLinhaCteNfes line = none := by
    intro line hfirst
    rcases hch : chavesDaLinha line with - | ⟨c, rest⟩
    · rw [parseLinhaCteNfes, hch]
    · rw [parseLinhaCteNfes, hch]
      simp [hfirst c rest hch]
  refine ⟨hpos, hneg, ?_, ?_⟩
  · intro ε results line c rest hmem hch hcte n hn hnfe
    have hparse := hpos line c rest hch hcte
      (fun h => by
        have : n ∈ rest.filter Chave.isNfe := List.mem_filter.mpr ⟨hn, hnfe⟩
        rw [h] at this
        exact absurd this (List.not_mem_nil n))
    have hpair : (c, (rest.filter Chave.isNfe).toFinset) ∈
        results.filterMap (fun r => match r with
          | .error _ => none
          | .ok line => parseLinhaCteNfes line) := by
      rw [List.mem_filterMap]
      exact ⟨Except.ok line, hmem, hparse⟩
    have := extendFold_mem _ (KMap.empty Chave) c ((rest.filter Chave.isNfe).toFinset)
      hpair n (by
        rw [List.mem_toFinset]
        exact List.mem_filter.mpr ⟨hn, hnfe⟩)
    exact this
  · intro ε res1 res2 line hfirst
    rw [lerTodasAsNfesDesteCte, lerTodasAsNfesDesteCte]
    congr 1
    rw [List.filterMap_append, List.filterMap_append, List.filterMap_cons]
    simp [hneg line hfirst]

set_option maxRecDepth 8192 in
/-- Closed instance of `c6_primeiro_cte_da_linha`: a line holding a manifest
key, a separator and an invoice key contributes that pair to the map. -/
theorem c6_witness :
    chaveCteA ∈
      (lerTodasAsNfesDesteCte
        ([Except.ok linhaCteNfe] : List (Except Unit (List Nat)))).dom ∧
    chaveNfeX ∈
      (lerTodasAsNfesDesteCte
        ([Except.ok linhaCteNfe] : List (Except Unit (List Nat)))).val chaveCteA :=
  c6_primeiro_cte_da_linha.2.2.1 Unit [Except.ok linhaCteNfe] linhaCteNfe
    chaveCteA [chaveNfeX]
    (List.mem_singleton_self _) (by decide) (by decide)
    chaveNfeX (List.mem_singleton_self _) (by decide)

/-- The complement loader aborts on the first failed line read, whatever was
accumulated so far. -/
theorem lerCompAux_erro (res2 : List (Except ε (List Nat))) (e : ε) :
    ∀ res1 : List (Except ε (List Nat)), (∀ r ∈ res1, ∃ l, r = Except.ok l) →
      ∀ acc : KMap Chave,
        lerCompAux acc (res1 ++ Except.error e :: res2) = Except.error e := by
  intro res1
  induction res1 with
  | nil =>
    intro _ acc
    rw [List.nil_append, lerCompAux]
  | cons r rest ih =>
    intro hok acc
    obtain ⟨l, rfl⟩ := hok r (List.mem_cons_self r rest)
    rw [List.cons_append, lerCompAux]
    exact ih (fun x hx => hok x (List.mem_cons_of_mem _ hx)) _

/-- C9: the two relationship loaders treat a failed line read differently:
the manifest-to-invoice load silently discards the failed line and still
returns the map built from the remaining lines, whereas the
manifest-to-manifest load aborts with the propagated error. -/
theorem c9_erro_de_linha_divergente :
    (∀ (ε : Type) (res1 res2 : List (Except ε (List Nat))) (e : ε),
      lerTodasAsNfesDesteCte (res1 ++ Except.error e :: res2) =
        lerTodasAsNfesDesteCte (res1 ++ res2)) ∧
    (∀ (ε : Type) (res1 res2 : List (Except ε (List Nat))) (e : ε),
      (∀ r ∈ res1, ∃ l, r = Except.ok l) →
      lerChaveComplementarDesteCte (res1 ++ Except.error e :: res2) =
        Except.error e) := by
  constructor
  · intro ε res1 res2 e
    rw [lerTodasAsNfesDesteCte, lerTodasAsNfesDesteCte]
    congr 1
    rw [List.filterMap_append, List.filterMap_append, List.filterMap_cons]
  · intro ε res1 res2 e hok
    rw [lerChaveComplementarDesteCte]
    exact lerCompAux_erro res2 e res1 hok _

/-- Closed instance of `c9_erro_de_linha_divergente`: one good line followed
by a failed read aborts the complement load with that error. -/
theorem c9_witness :
    lerChaveComplementarDesteCte
        ([Except.ok linhaCteNfe, Except.error 7] : List (Except Nat (List Nat))) =
      Except.error 7 :=
  c9_erro_de_linha_divergente.2 Nat [Except.ok linhaCteNfe] [] 7
    (fun r hr => ⟨linhaCteNfe, List.mem_singleton.mp hr⟩)

/-- A parsed manifest-to-invoice line never carries an empty invoice set
(the `nfes.is_empty()` guard). -/
theorem parseLinha_nonempty (line : List Nat) (p : Chave × Finset Chave)
    (h : parseLinhaCteNfes line = some p) : p.2 ≠ ∅ := by
  rw [parseLinhaCteNfes] at h
  split at h
  · exact absurd h (by simp)
  · split at h
    · split at h
      · exact absurd h (by simp)
      · rename_i hguard
        injection h with h2
        rw [← h2]
        exact hguard
    · exact absurd h (by simp)

/-- Union-insertion with a nonempty set keeps every entry nonempty. -/
theorem extendSet_nonempty (m : KMap Chave) (hm : ∀ k ∈ m.dom, m.val k ≠ ∅)
    (k0 : Chave) (s : Finset Chave) (hs : s ≠ ∅) :
    ∀ k ∈ (m.extendSet k0 s).dom, (m.extendSet k0 s).val k ≠ ∅ := by
  intro k hk
  rw [KMap.extendSet]
  simp only
  by_cases hkk : k = k0
  · rw [if_pos hkk]
    intro hempty
    rw [Finset.union_eq_empty] at hempty
    exact hs hempty.2
  · rw [if_neg hkk]
    rw [KMap.extendSet] at hk
    simp only [Finset.mem_insert] at hk
    rcases hk with hk | hk
    · exact absurd hk hkk
    · exact hm k hk

/-- Folding union-insertions of nonempty sets keeps every entry nonempty. -/
theorem extendFold_nonempty (ps : List (Chave × Finset Chave))
    (hps : ∀ p ∈ ps, p.2 ≠ (∅ : Finset Chave)) :
    ∀ m : KMap Chave, (∀ k ∈ m.dom, m.val k ≠ ∅) →
      ∀ k ∈ (ps.foldl (fun m p => m.extendSet p.1 p.2) m).dom,
        (ps.foldl (fun m p => m.extendSet p.1 p.2) m).val k ≠ ∅ := by
  induction ps with
  | nil =>
    intro m hm
    rw [List.foldl_nil]
    exact hm
  | cons p rest ih =>
    intro m hm
    rw [List.foldl_cons]
    exact ih (fun q hq => hps q (List.mem_cons_of_mem p hq)) (m.extendSet p.1 p.2)
      (extendSet_nonempty m hm p.1 p.2 (hps p (List.mem_cons_self p rest)))

/-- The manifest-to-invoice loader maps every present key to a nonempty set. -/
theorem lerTodas_val_nonempty (results : List (Except ε (List Nat))) :
    ∀ k ∈ (lerTodasAsNfesDesteCte results).dom,
      (lerTodasAsNfesDesteCte results).val k ≠ ∅ := by
  rw [lerTodasAsNfesDesteCte]
  refine extendFold_nonempty _ ?_ (KMap.empty Chave) ?_
  · intro p hp
    rw [List.mem_filterMap] at hp
    obtain ⟨r, -, hr⟩ := hp
    rcases r with e | line
    · exact absurd hr (by simp)
    · exact parseLinha_nonempty line p hr
  · intro k hk
    exact absurd hk (Finset.not_mem_empty k)

/-- One complement line keeps every entry nonempty (edges are inserted as
singleton extensions). -/
theorem addLinha_nonempty (acc : KMap Chave) (hacc : ∀ k ∈ acc.dom, acc.val k ≠ ∅)
    (line : List Nat) :
    ∀ k ∈ (addLinhaComplementar acc line).dom, (addLinhaComplementar acc line).val k ≠ ∅ := by
  rw [addLinhaComplementar]
  split
  · split
    · refine extendSet_nonempty _ ?_ _ _ (by simp)
      exact extendSet_nonempty acc hacc _ _ (by simp)
    · exact hacc
  · exact hacc

/-- The complement loader maps every present key to a nonempty set. -/
theorem lerComp_val_nonempty (results : List (Except ε (List Nat))) :
    ∀ acc : KMap Chave, (∀ k ∈ acc.dom, acc.val k ≠ ∅) →
      ∀ m : KMap Chave, lerCompAux acc results = Except.ok m →
        ∀ k ∈ m.dom, m.val k ≠ ∅ := by
  induction results with
  | nil =>
    intro acc hacc m hm
    rw [lerCompAux] at hm
    injection hm with h2
    rw [← h2]
    exact hacc
  | cons r rest ih =>
    intro acc hacc m hm
    rcases r with e | line
    · rw [lerCompAux] at hm
      exact absurd hm (by simp)
    · rw [lerCompAux] at hm
      exact ih (addLinhaComplementar acc line) (addLinha_nonempty acc hacc line) m hm

/-- Propagation keeps every entry nonempty when the invoice map's entries are
nonempty: old entries only grow and new targets inherit a nonempty set. -/
theorem propagar_val_nonempty (cn cc : KMap Chave)
    (hcn : ∀ k ∈ cn.dom, cn.val k ≠ ∅) :
    ∀ k ∈ (propagar cn cc).dom, (propagar cn cc).val k ≠ ∅ := by
  intro k hk
  rw [propagar] at hk ⊢
  simp only [Finset.mem_union, Finset.mem_biUnion, Finset.mem_inter] at hk
  intro hempty
  rw [Finset.union_eq_empty] at hempty
  rcases hk with hk | ⟨c, ⟨hc1, hc2⟩, hkc⟩
  · rw [if_pos hk] at hempty
    exact hcn k hk hempty.1
  · have hcfil : c ∈ (cn.dom ∩ cc.dom).filter (fun c => k ∈ cc.val c) :=
      Finset.mem_filter.mpr ⟨Finset.mem_inter.mpr ⟨hc1, hc2⟩, hkc⟩
    have : cn.val c ⊆ ∅ := by
      rw [← hempty.2]
      intro x hx
      exact Finset.mem_biUnion.mpr ⟨c, hcfil, hx⟩
    obtain ⟨x, hx⟩ := Finset.nonempty_iff_ne_empty.mpr (hcn c hc1)
    exact absurd (this hx) (Finset.not_mem_empty x)

/-- The inverted index maps every present key to a nonempty set. -/
theorem inverter_val_nonempty (cn : KMap Chave) :
    ∀ k ∈ (inverter cn).dom, (inverter cn).val k ≠ ∅ := by
  intro k hk
  rw [inverter] at hk ⊢
  simp only [Finset.mem_biUnion] at hk
  obtain ⟨c, hc, hkc⟩ := hk
  intro hempty
  dsimp only at hempty
  have : c ∈ cn.dom.filter (fun c => k ∈ cn.val c) := Finset.mem_filter.mpr ⟨hc, hkc⟩
  rw [hempty] at this
  exact absurd this (Finset.not_mem_empty c)

/-- C10: after `Informacoes::from_files` succeeds, none of the three
relationship maps associates a key with an empty set. -/
theorem c10_sem_conjuntos_vazios (ε : Type) (l1 l2 : List (Except ε (List Nat)))
    (info : Informacoes) (h : fromFiles l1 l2 = Except.ok info) :
    (∀ k ∈ info.cteNfes.dom, info.cteNfes.val k ≠ ∅) ∧
    (∀ k ∈ info.cteComplementar.dom, info.cteComplementar.val k ≠ ∅) ∧
    (∀ k ∈ info.nfeCtes.dom, info.nfeCtes.val k ≠ ∅) := by
  rw [fromFiles] at h
  split at h
  · exact absurd h (by simp)
  · rename_i cc0 heq
    injection h with h2
    rw [← h2]
    refine ⟨?_, ?_, ?_⟩
    · exact propagar_val_nonempty _ _ (lerTodas_val_nonempty l1)
    · intro k hk
      exact (expandir_dom_iff_nonempty cc0 k).mp hk
    · exact inverter_val_nonempty _

/-- Closed instance of `c10_sem_conjuntos_vazios` on empty relationship
files. -/
theorem c10_witness :
    (∀ k ∈ (propagar (lerTodasAsNfesDesteCte ([] : List (Except Unit (List Nat))))
        (expandir (KMap.empty Chave))).dom,
      (propagar (lerTodasAsNfesDesteCte ([] : List (Except Unit (List Nat))))
        (expandir (KMap.empty Chave))).val k ≠ ∅) ∧
    (∀ k ∈ (expandir (KMap.empty Chave)).dom,
      (expandir (KMap.empty Chave)).val k ≠ ∅) ∧
    (∀ k ∈ (inverter (propagar
        (lerTodasAsNfesDesteCte ([] : List (Except Unit (List Nat))))
        (expandir (KMap.empty Chave)))).dom,
      (inverter (propagar
        (lerTodasAsNfesDesteCte ([] : List (Except Unit (List Nat))))
        (expandir (KMap.empty Chave)))).val k ≠ ∅) :=
  c10_sem_conjuntos_vazios Unit [] []
    (Informacoes.mk
      (inverter (propagar (lerTodasAsNfesDesteCte ([] : List (Except Unit (List Nat))))
        (expandir (KMap.empty Chave))))
      (propagar (lerTodasAsNfesDesteCte ([] : List (Except Unit (List Nat))))
        (expandir (KMap.empty Chave)))
      (expandir (KMap.empty Chave)))
    rfl
